import Mathlib

/-!
Verification of the keyhunt M1 CPU core against its specification.

The definitions below are a shallow embedding of the C++ sources:

* `UInt256`, `KeyRange`          — include/keyhunt/core/types.h
* `SimpleBloomFilter`            — the bloom filter of test_bloom_filter.cpp
* `Task`, the binary heap, and the pool state
                                 — include/keyhunt/core/thread_pool.h
                                   (`std::priority_queue<Task>` is embedded as the
                                   GNU libstdc++ `push_heap` / `pop_heap` binary
                                   heap that the built program executes)
* `chunkLoop`, `parallel_for_indices`
                                 — `parallel_for` of thread_pool.h
* `bsgsSearch` and friends       — the BSGS search; the implementation file of
                                   `CPUBSGSEngine` (struct Impl) is not part of the
                                   sources, so the search is modelled from the spec
* `pstep`, `runTrace`            — a small-step model of `ThreadPool::worker_loop`
                                   together with `pause` / `resume` / `submit`.

Machine integers are embedded as `Nat` with an explicit `% 2 ^ 64` (resp. `% 256`,
`% 2 ^ 256`) exactly where the C++ fixed-width arithmetic wraps.
-/

set_option maxHeartbeats 1600000

namespace keyhunt.core

/-- The 256-bit unsigned integer of types.h (`class UInt256`): four 64-bit limbs,
little-endian limb order (`limbs_[0]` is least significant).  Limbs are `Nat`
carrying the uint64 range invariant `UInt256.Wf`. -/
structure UInt256 where
  l0 : Nat
  l1 : Nat
  l2 : Nat
  l3 : Nat
deriving DecidableEq, Repr

/-- Limb accessor, `limbs_[i]` (indices 0..3; out-of-range access does not occur
in the embedded operations). -/
def UInt256.limb (x : UInt256) : Nat → Nat
  | 0 => x.l0
  | 1 => x.l1
  | 2 => x.l2
  | 3 => x.l3
  | _ => 0

/-- Write limb `i` (helper for the loops of types.h that assign `limbs_[i]`). -/
def UInt256.setLimb (x : UInt256) (i v : Nat) : UInt256 :=
  match i with
  | 0 => { x with l0 := v }
  | 1 => { x with l1 := v }
  | 2 => { x with l2 := v }
  | 3 => { x with l3 := v }
  | _ => x

/-- `UInt256()` — the default constructor fills the limbs with zero. -/
def UInt256.zero : UInt256 := ⟨0, 0, 0, 0⟩

/-- `UInt256(uint64_t value)`. -/
def UInt256.ofU64 (value : Nat) : UInt256 := ⟨value, 0, 0, 0⟩

/-- uint64 range invariant carried by every C++ `UInt256`. -/
def UInt256.Wf (x : UInt256) : Prop :=
  x.l0 < 2 ^ 64 ∧ x.l1 < 2 ^ 64 ∧ x.l2 < 2 ^ 64 ∧ x.l3 < 2 ^ 64

instance (x : UInt256) : Decidable x.Wf := by
  unfold UInt256.Wf; infer_instance

/-- Value denoted by the four little-endian limbs. -/
def UInt256.toNat (x : UInt256) : Nat :=
  x.l0 + 2 ^ 64 * x.l1 + 2 ^ 128 * x.l2 + 2 ^ 192 * x.l3

/-- `operator+` of types.h: 64-bit limb carry chain.  Each step computes
`sum = a_i + b_i + carry` exactly (the C++ uses `__uint128_t`), stores
`sum mod 2^64` and carries `sum >> 64`. -/
def UInt256.add (a b : UInt256) : UInt256 :=
  let s0 := a.l0 + b.l0
  let s1 := a.l1 + b.l1 + s0 / 2 ^ 64
  let s2 := a.l2 + b.l2 + s1 / 2 ^ 64
  let s3 := a.l3 + b.l3 + s2 / 2 ^ 64
  ⟨s0 % 2 ^ 64, s1 % 2 ^ 64, s2 % 2 ^ 64, s3 % 2 ^ 64⟩

instance : Add UInt256 := ⟨UInt256.add⟩

/-- One limb step of `operator-` of types.h:
`uint64_t b = other.limbs_[i] + borrow` (wraps mod 2^64);
`if (b < borrow || a < b) { borrow = 1; result = a + (~b + 1); }`
(`~b + 1` and the addition wrap mod 2^64); `else { borrow = 0; result = a - b; }`.
Returns `(result limb, outgoing borrow)`. -/
def UInt256.subLimb (a b borrow : Nat) : Nat × Nat :=
  let b2 := (b + borrow) % 2 ^ 64
  if b2 < borrow ∨ a < b2 then
    ((a + (2 ^ 64 - 1 - b2 + 1) % 2 ^ 64) % 2 ^ 64, 1)
  else
    (a - b2, 0)

/-- `operator-` of types.h: 64-bit limb borrow chain. -/
def UInt256.sub (a b : UInt256) : UInt256 :=
  let p0 := UInt256.subLimb a.l0 b.l0 0
  let p1 := UInt256.subLimb a.l1 b.l1 p0.2
  let p2 := UInt256.subLimb a.l2 b.l2 p1.2
  let p3 := UInt256.subLimb a.l3 b.l3 p2.2
  ⟨p0.1, p1.1, p2.1, p3.1⟩

instance : Sub UInt256 := ⟨UInt256.sub⟩

/-- `set_bit(pos, value)` of types.h: no-op for `pos >= 256`; otherwise
or (resp. and with the complement of) `1 << (pos % 64)` into limb `pos / 64`. -/
def UInt256.set_bit (x : UInt256) (pos : Nat) (value : Bool := true) : UInt256 :=
  if pos ≥ 256 then x
  else
    let limb_idx := pos / 64
    let bit_idx := pos % 64
    if value then
      x.setLimb limb_idx (x.limb limb_idx ||| (1 <<< bit_idx))
    else
      x.setLimb limb_idx (x.limb limb_idx &&& ((2 ^ 64 - 1) ^^^ (1 <<< bit_idx)))

/-- `to_bytes()` of types.h.  The C++ loop writes
`result[31 - (i*8 + j)] = uint8(limbs_[i] >> (j*8))` for `i < 4`, `j < 8`;
solving `31 - (i*8 + j) = p` for the byte position `p` gives `i = (31-p)/8`
and `j = (31-p)%8`, which is the closed form used here. -/
def UInt256.to_bytes (x : UInt256) : List Nat :=
  List.ofFn fun p : Fin 32 =>
    (x.limb ((31 - p.1) / 8) >>> (((31 - p.1) % 8) * 8)) % 256

/-- One limb of `from_bytes`: `limbs_[i] |= uint64(bytes[31 - (i*8 + j)]) << (j*8)`
for `j < 8`, starting from 0. -/
def UInt256.limbFromBytes (bytes : List Nat) (i : Nat) : Nat :=
  (List.range 8).foldl (fun acc j => acc ||| (bytes.getD (31 - (i * 8 + j)) 0 <<< (j * 8))) 0

/-- `from_bytes(const uint8_t*)` of types.h (big-endian input). -/
def UInt256.from_bytes (bytes : List Nat) : UInt256 :=
  ⟨UInt256.limbFromBytes bytes 0, UInt256.limbFromBytes bytes 1,
   UInt256.limbFromBytes bytes 2, UInt256.limbFromBytes bytes 3⟩

/-- `operator<` of types.h: lexicographic comparison from limb 3 down to limb 0. -/
def UInt256.ltb (a b : UInt256) : Bool :=
  if a.l3 < b.l3 then true else if b.l3 < a.l3 then false
  else if a.l2 < b.l2 then true else if b.l2 < a.l2 then false
  else if a.l1 < b.l1 then true else if b.l1 < a.l1 then false
  else if a.l0 < b.l0 then true else if b.l0 < a.l0 then false
  else false

/-- `struct KeyRange` of types.h. -/
structure KeyRange where
  start : UInt256
  end_ : UInt256
deriving DecidableEq, Repr

/-- `KeyRange::size()`: `if (start > end) return 0; return end - start + 1;`. -/
def KeyRange.size (r : KeyRange) : UInt256 :=
  if UInt256.ltb r.end_ r.start then UInt256.zero
  else (r.end_.sub r.start).add (UInt256.ofU64 1)

/-- `KeyRange::contains(key)`: `key >= start && key <= end`. -/
def KeyRange.contains (r : KeyRange) (key : UInt256) : Bool :=
  !(UInt256.ltb key r.start) && !(UInt256.ltb r.end_ key)

/-- `KeyRange::split(n)` of types.h — embedded exactly as written: the body is a
stub (`// TODO: Implement proper division for KeyRange splitting`) that returns
the empty list for `n = 0` and otherwise pushes the whole range as the single
part (`parts.push_back(*this); // Placeholder`). -/
def KeyRange.split (r : KeyRange) (n : Nat) : List KeyRange :=
  if n = 0 then [] else [r]

/-- `KeyRange::for_bits(bit_count)` of types.h.  Throws `ValidationException`
(modelled as `Except.error`) for `bit_count <= 0 || bit_count > 256`; otherwise
sets bit `bit_count - 1` of `start` and bits `0 .. bit_count - 1` of `end`. -/
def KeyRange.for_bits (bit_count : Int) : Except String KeyRange :=
  if bit_count ≤ 0 ∨ bit_count > 256 then
    Except.error "Bit count must be between 1 and 256"
  else
    let n := bit_count.toNat
    let start := UInt256.zero.set_bit (n - 1) true
    let end_ := (List.range n).foldl (fun acc i => acc.set_bit i true) UInt256.zero
    Except.ok ⟨start, end_⟩

/-- `simple_hash(data, len, seed)` of test_bloom_filter.cpp, over the byte list
`data`: `hash = hash * 31 + bytes[i]; hash ^= hash >> 17; hash *= 0x85ebca6b;`
with all uint64 arithmetic wrapping mod 2^64. -/
def simple_hash (data : List Nat) (seed : Nat) : Nat :=
  data.foldl
    (fun hash b =>
      let h1 := (hash * 31 + b) % 2 ^ 64
      let h2 := h1 ^^^ (h1 >>> 17)
      h2 * 0x85ebca6b % 2 ^ 64)
    seed

/-- `class SimpleBloomFilter` of test_bloom_filter.cpp: a byte vector `bits_`
of `(num_bits + 7) / 8` bytes plus the two size parameters. -/
structure SimpleBloomFilter where
  bits_ : List Nat
  num_bits_ : Nat
  num_hashes_ : Nat
deriving DecidableEq, Repr

/-- The `SimpleBloomFilter(num_bits, num_hashes)` constructor. -/
def SimpleBloomFilter.init (num_bits num_hashes : Nat) : SimpleBloomFilter :=
  ⟨List.replicate ((num_bits + 7) / 8) 0, num_bits, num_hashes⟩

/-- Length invariant established by the constructor and kept by `add`/`clear`. -/
def SimpleBloomFilter.Wf (f : SimpleBloomFilter) : Prop :=
  f.bits_.length = (f.num_bits_ + 7) / 8

instance (f : SimpleBloomFilter) : Decidable f.Wf := by
  unfold SimpleBloomFilter.Wf; infer_instance

/-- `SimpleBloomFilter::add`: for each hash seed `i < num_hashes_`, with
`pos = simple_hash(data, i) % num_bits_`, set `bits_[pos / 8] |= 1 << (pos % 8)`. -/
def SimpleBloomFilter.add (f : SimpleBloomFilter) (data : List Nat) : SimpleBloomFilter :=
  { f with
    bits_ :=
      (List.range f.num_hashes_).foldl
        (fun bs i =>
          let pos := simple_hash data i % f.num_bits_
          bs.set (pos / 8) (bs.getD (pos / 8) 0 ||| (1 <<< (pos % 8))))
        f.bits_ }

/-- `SimpleBloomFilter::possibly_contains`: true iff for every hash seed the
addressed bit is set (`!(bits_[pos / 8] & (1 << (pos % 8)))` returns false). -/
def SimpleBloomFilter.possibly_contains (f : SimpleBloomFilter) (data : List Nat) : Bool :=
  (List.range f.num_hashes_).all fun i =>
    let pos := simple_hash data i % f.num_bits_
    decide (f.bits_.getD (pos / 8) 0 &&& (1 <<< (pos % 8)) ≠ 0)

/-- Fold of `add` over a list of elements (a sequence of insertions). -/
def SimpleBloomFilter.addAll (f : SimpleBloomFilter) (datas : List (List Nat)) :
    SimpleBloomFilter :=
  datas.foldl SimpleBloomFilter.add f

/-- `enum class TaskPriority` of thread_pool.h (underlying uint8 values 0..3). -/
inductive TaskPriority
  | LOW
  | NORMAL
  | HIGH
  | CRITICAL
deriving DecidableEq, Repr, BEq

/-- Underlying integer value of the priority enum. -/
def TaskPriority.val : TaskPriority → Nat
  | .LOW => 0
  | .NORMAL => 1
  | .HIGH => 2
  | .CRITICAL => 3

/-- `struct Task` of thread_pool.h.  The `std::function` payload is modelled by
the sequence number `seq` recording submission order (it identifies the task and
lets FIFO order be stated); `priority` is the task priority. -/
structure Task where
  seq : Nat
  priority : TaskPriority
deriving DecidableEq, Repr, BEq

/-- Placeholder element for out-of-range reads (never reached on the in-range
accesses performed by the heap routines). -/
def dTask : Task := ⟨0, TaskPriority.LOW⟩

/-- `Task::operator<`: `priority < other.priority` — the comparator of
`std::priority_queue<Task>`; it looks only at the priority. -/
def Task.lt (a b : Task) : Bool := a.priority.val < b.priority.val

/-- Priority value of a task (shorthand used in heap statements). -/
def Task.pri (t : Task) : Nat := t.priority.val

/-- The while loop of libstdc++ `__push_heap(first, holeIndex, topIndex = 0,
value)`: while the hole is below the top and the parent compares less than
`value`, move the parent down into the hole; finally store `value` in the hole.
The `fuel` argument only bounds the recursion for Lean; the hole index strictly
decreases, so `siftUp` below always supplies enough fuel and the fuel-exhausted
branch is never taken. -/
def siftUpGo : Nat → List Task → Nat → Task → List Task
  | 0, l, hole, value => l.set hole value
  | fuel + 1, l, hole, value =>
    if 0 < hole ∧ Task.lt (l.getD ((hole - 1) / 2) dTask) value then
      siftUpGo fuel (l.set hole (l.getD ((hole - 1) / 2) dTask)) ((hole - 1) / 2) value
    else
      l.set hole value

/-- libstdc++ `__push_heap` from hole index `hole` up to the top. -/
def siftUp (l : List Task) (hole : Nat) (value : Task) : List Task :=
  siftUpGo (hole + 1) l hole value

/-- `priority_queue::push`: `push_back` then `std::push_heap` over the whole
vector (hole starts at the new last position). -/
def heapPush (l : List Task) (t : Task) : List Task :=
  siftUp (l ++ [t]) l.length t

/-- The while loop of libstdc++ `__adjust_heap(first, holeIndex, len, value)`:
while `secondChild < (len - 1) / 2`, set `secondChild = 2 * (secondChild + 1)`,
move to the left sibling when it compares not less, copy that child into the
hole and descend.  Returns `(array, holeIndex, secondChild)`.  As above, `fuel`
only bounds the recursion; `secondChild` strictly increases towards `len`, so
`adjustLoop` below always supplies enough fuel. -/
def adjustLoopGo : Nat → List Task → Nat → Nat → Nat → List Task × Nat × Nat
  | 0, l, hole, sc, _ => (l, hole, sc)
  | fuel + 1, l, hole, sc, len =>
    if sc < (len - 1) / 2 then
      if Task.lt (l.getD (2 * (sc + 1)) dTask) (l.getD (2 * (sc + 1) - 1) dTask) then
        adjustLoopGo fuel (l.set hole (l.getD (2 * (sc + 1) - 1) dTask))
          (2 * (sc + 1) - 1) (2 * (sc + 1) - 1) len
      else
        adjustLoopGo fuel (l.set hole (l.getD (2 * (sc + 1)) dTask))
          (2 * (sc + 1)) (2 * (sc + 1)) len
    else
      (l, hole, sc)

/-- The descend loop of libstdc++ `__adjust_heap` started from the hole. -/
def adjustLoop (l : List Task) (hole sc len : Nat) : List Task × Nat × Nat :=
  adjustLoopGo len l hole sc len

/-- libstdc++ `__adjust_heap(first, 0, len, value)` (the hole always starts at
the top for `pop_heap`): the descend loop, the final even-length single-child
step, then `__push_heap` from the reached hole. -/
def adjustHeap (l : List Task) (len : Nat) (value : Task) : List Task :=
  let r := adjustLoop l 0 0 len
  if len % 2 = 0 ∧ r.2.2 = (len - 2) / 2 then
    siftUp (r.1.set r.2.1 (r.1.getD (2 * (r.2.2 + 1) - 1) dTask)) (2 * (r.2.2 + 1) - 1) value
  else
    siftUp r.1 r.2.1 value

/-- `priority_queue::pop` over libstdc++: `top()` is the front; `std::pop_heap`
moves the last element out as `value`, stores the front at the end (removed by
`pop_back`) and runs `__adjust_heap` on the remaining `len = size - 1` entries;
a one-element heap is simply emptied.  Returns `(popped task, remaining heap)`. -/
def heapPop (l : List Task) : Option (Task × List Task) :=
  match l with
  | [] => none
  | t :: rest =>
    if rest.isEmpty then some (t, [])
    else some (t, adjustHeap (t :: rest).dropLast (t :: rest).dropLast.length
                    ((t :: rest).getLastD dTask))

/-- Pop repeatedly with explicit fuel (the fuel is the list length in `drain`). -/
def drainFuel : Nat → List Task → List Task
  | 0, _ => []
  | fuel + 1, l =>
    match heapPop l with
    | none => []
    | some (t, rest) => t :: drainFuel fuel rest

/-- Sequence of tasks obtained by popping the heap until it is empty: the order
in which a single worker dequeues the already-queued tasks. -/
def drain (l : List Task) : List Task :=
  drainFuel l.length l

/-- Push a list of tasks in order into an initially empty queue. -/
def heapPushAll (ts : List Task) : List Task :=
  ts.foldl heapPush []

/-- Heap-order invariant of `std::priority_queue` with respect to
`Task::operator<`: no parent compares less than a child. -/
def IsHeap (l : List Task) : Prop :=
  ∀ i, 0 < i → i < l.length →
    (l.getD i dTask).pri ≤ (l.getD ((i - 1) / 2) dTask).pri

/-- Pool bookkeeping state touched by the submit paths of thread_pool.h:
the stop flag, the priority queue `tasks_`, and the two statistics counters
incremented on submit. -/
structure ThreadPoolState where
  stop_ : Bool
  tasks_ : List Task
  tasks_submitted : Nat
  tasks_pending : Nat
deriving DecidableEq, Repr

/-- `ThreadPool::submit_with_priority`: under the queue lock, throw
`std::runtime_error("Cannot submit to stopped thread pool")` when `stop_` is
set — before anything is pushed or counted — otherwise push the task and
increment `tasks_submitted` and `tasks_pending`.  The result pairs the thrown
error (if any) with the pool state after the call. -/
def ThreadPool.submit_with_priority (s : ThreadPoolState) (priority : TaskPriority) (seq : Nat) :
    Option String × ThreadPoolState :=
  if s.stop_ then (some "Cannot submit to stopped thread pool", s)
  else
    (none,
      { s with
        tasks_ := heapPush s.tasks_ ⟨seq, priority⟩
        tasks_submitted := s.tasks_submitted + 1
        tasks_pending := s.tasks_pending + 1 })

/-- `ThreadPool::submit`: delegates to `submit_with_priority(NORMAL, ...)`. -/
def ThreadPool.submit (s : ThreadPoolState) (seq : Nat) : Option String × ThreadPoolState :=
  ThreadPool.submit_with_priority s TaskPriority.NORMAL seq

/-- `ThreadPool::submit_batch`: same stop check under the lock (throwing before
any push), then push every task with the given priority and add the batch size
to both counters. -/
def ThreadPool.submit_batch (s : ThreadPoolState) (seqs : List Nat) (priority : TaskPriority) :
    Option String × ThreadPoolState :=
  if s.stop_ then (some "Cannot submit to stopped thread pool", s)
  else
    (none,
      { s with
        tasks_ := seqs.foldl (fun q sq => heapPush q ⟨sq, priority⟩) s.tasks_
        tasks_submitted := s.tasks_submitted + seqs.length
        tasks_pending := s.tasks_pending + seqs.length })

/-- Phase of a worker thread in `ThreadPool::worker_loop`:
`waiting` — blocked in `condition_.wait` (not holding the lock);
`ready`   — woke up, passed the `tasks_.empty() || paused_` check, holds the
            queue lock and is about to `tasks_.pop()`;
`running` — executing `task.func()` (lock released);
`exited`  — returned after observing `stop_ && tasks_.empty()`. -/
inductive WorkerPhase
  | waiting
  | ready
  | running
  | exited
deriving DecidableEq, Repr, BEq

/-- State of the pause/worker interaction of thread_pool.h: the two atomic
flags, the number of queued tasks, and the phase of each worker. -/
structure PauseModelState where
  stop_ : Bool
  paused_ : Bool
  queued : Nat
  workers : List WorkerPhase
deriving DecidableEq, Repr

/-- Transition labels: the lock-free `pause()`/`resume()` stores, the locked
`submit`/`shutdown` paths, and the worker-loop steps. -/
inductive PoolLabel
  | pause
  | resume
  | submit
  | shutdown
  | check (w : Nat)
  | pop (w : Nat)
  | finish (w : Nat)
  | exitWorker (w : Nat)
deriving DecidableEq, Repr

/-- True when no worker is between its pause check and its pop, i.e. no worker
holds `queue_mutex_`; locked operations are only enabled then. -/
def noLockHeld (ws : List WorkerPhase) : Bool :=
  ws.all fun p => p != WorkerPhase.ready

/-- One interleaved step of the pool.  `pause`/`resume` are plain atomic stores
(`paused_.store(...)`) that need no lock, so they are always enabled — in
particular between another worker's pause check and its pop.  `check w` models
the condition-variable predicate together with the
`if (tasks_.empty() || paused_.load())` re-check (the transition happens at the
final read, so it requires a nonempty queue and `paused_ = false`); `pop w`
models `tasks_.top(); tasks_.pop();`, separate from the check because the
lock-free pause store can land in between. -/
def pstep (s : PauseModelState) : PoolLabel → Option PauseModelState
  | .pause => some { s with paused_ := true }
  | .resume => some { s with paused_ := false }
  | .submit =>
    if s.stop_ = false ∧ noLockHeld s.workers then
      some { s with queued := s.queued + 1 }
    else none
  | .shutdown =>
    if noLockHeld s.workers then some { s with stop_ := true } else none
  | .check w =>
    if w < s.workers.length ∧ s.workers.getD w .exited = .waiting ∧
        s.queued ≠ 0 ∧ s.paused_ = false ∧ noLockHeld s.workers then
      some { s with workers := s.workers.set w .ready }
    else none
  | .pop w =>
    if s.workers.getD w .exited = .ready ∧ s.queued ≠ 0 then
      some { s with queued := s.queued - 1, workers := s.workers.set w .running }
    else none
  | .finish w =>
    if s.workers.getD w .exited = .running then
      some { s with workers := s.workers.set w .waiting }
    else none
  | .exitWorker w =>
    if w < s.workers.length ∧ s.workers.getD w .exited = .waiting ∧
        s.stop_ = true ∧ s.queued = 0 ∧ noLockHeld s.workers then
      some { s with workers := s.workers.set w .exited }
    else none

/-- Run a sequence of labelled steps; `none` when some step is not enabled. -/
def runTrace (s : PauseModelState) : List PoolLabel → Option PauseModelState
  | [] => some s
  | lab :: rest =>
    match pstep s lab with
    | none => none
    | some s2 => runTrace s2 rest

/-- The chunk loop of `parallel_for`:
`for (i = start; i < end; i += chunk_size)` producing the pairs
`(i, min(i + chunk_size, end))`.  The source always runs it with a positive
chunk size (the auto path takes `max(1, ...)`); the `0 < cs` conjunct only makes
the recursion well-founded in Lean. -/
def chunkLoop (e cs i : Nat) : List (Nat × Nat) :=
  if _h : i < e ∧ 0 < cs then (i, min (i + cs) e) :: chunkLoop e cs (i + cs) else []
termination_by e - i
decreasing_by omega

/-- Chunk size used by `parallel_for`: the caller's value, or
`max(1, total / (pool.size() * 4))` when the caller passed 0. -/
def effectiveChunkSize (poolSize total cs0 : Nat) : Nat :=
  if cs0 = 0 then max 1 (total / (poolSize * 4)) else cs0

/-- Indices on which `parallel_for(pool, start, end, f)` invokes `f`, chunk by
chunk in submission order (each submitted chunk task runs the inner loop
`for (j = i; j < chunk_end; ++j) func(j)`).  The multiset of side effects of the
parallel execution is the multiset of this list. -/
def parallel_for_indices (poolSize start e cs0 : Nat) : List Nat :=
  if start ≥ e then []
  else
    (chunkLoop e (effectiveChunkSize poolSize (e - start) cs0) start).flatMap
      fun c => List.range' c.1 (c.2 - c.1)

/-- `enum class BSGSMode` of config.h. -/
inductive BSGSMode
  | SEQUENTIAL
  | BACKWARD
  | BOTH
  | RANDOM
  | DANCE
deriving DecidableEq, Repr

/-- Modelled from the spec: the scalar multiplication `k · G` of the group layer
used by the BSGS engine (the `CPUBSGSEngine` implementation file, src/core/bsgs.cpp,
is not among the sources — only its interface in bsgs.h is).  Points are
embedded in the infinite cyclic group ℤ with `G = 1`, which is faithful for
search ranges below the secp256k1 group order (≈ 2^256), as all puzzle ranges
are: distinct scalars give distinct points. -/
def scalarMulG (k : Int) : Int := k

/-- Modelled from the spec (§4.2 probe contract): the baby-step table built for
scalars `[0, m)` against base `G` holds the points `P_i = i · G`;
`table.lookup(C)` returns `some i` iff `C = P_i` for some `i < m`.  In the ℤ
model `P_i = i`. -/
def babyLookup (m : Nat) (C : Int) : Option Nat :=
  if 0 ≤ C ∧ C < (m : Int) then some C.toNat else none

/-- Modelled from the spec (§4.3 step 4): candidate verification — compute
`cand · G`, compare with the target `T`, publish on equality. -/
def verifyKey (T cand : Int) : Option Int :=
  if scalarMulG cand = T then some cand else none

/-- Modelled from the spec (§4.3 steps 4–5): one giant step `j`.  Compute
`C_j = T - lo·G - j·(m·G)`, probe the table (hit at `i` gives candidate
`lo + j*m + i`, verified before publication); with the endomorphism branch
enabled additionally probe `φ(C_j) = λ·C_j` against the same table, recover a
candidate key from the hit (`recover`, kept abstract) and verify it the same
way. -/
def giantProbe (T lo : Int) (m : Nat) (endo : Bool) (lam : Int)
    (recover : Nat → Nat → Int) (j : Nat) : Option Int :=
  let C := T - lo - (j : Int) * (m : Int)
  match babyLookup m C with
  | some i => verifyKey T (lo + (j : Int) * (m : Int) + (i : Int))
  | none =>
    if endo then
      match babyLookup m (lam * C) with
      | some i => verifyKey T (recover j i)
      | none => none
    else none

/-- Modelled from the spec: the `bothways` cursor pair — two cursors from
opposite ends of `[lo, hi)`, advanced alternately until they meet. -/
def bothwaysAux (lo hi : Nat) : List Nat :=
  if lo < hi then lo :: (hi - 1) :: bothwaysAux (lo + 1) (hi - 1) else []
termination_by hi - lo
decreasing_by omega

/-- Modelled from the spec: the `dance` heuristic — an alternating
forward/backward stride (two steps from the front, two from the back) until the
cursors meet. -/
def danceAux (lo hi : Nat) (fwd : Bool) : List Nat :=
  if lo < hi then
    if fwd then
      if lo + 1 < hi then lo :: (lo + 1) :: danceAux (lo + 2) hi false else [lo]
    else
      if lo + 1 < hi then (hi - 1) :: (hi - 2) :: danceAux lo (hi - 2) true else [lo]
  else []
termination_by hi - lo
decreasing_by
  · omega
  · omega

/-- Modelled from the spec (§4.3 search modes): the order in which the giant
step indices `[0, J)` are visited.  `RANDOM` visits chunks in a pseudo-random
order produced by the generator `shuffle` (any reordering that drops no index). -/
def modeOrder (mode : BSGSMode) (J : Nat) (shuffle : List Nat → List Nat) : List Nat :=
  match mode with
  | .SEQUENTIAL => List.range J
  | .BACKWARD => (List.range J).reverse
  | .BOTH => bothwaysAux 0 J
  | .RANDOM => shuffle (List.range J)
  | .DANCE => danceAux 0 J true

/-- Modelled from the spec (§4.3 step 4): number of giant steps
`⌈N / m⌉` with `N = hi - lo + 1`. -/
def numGiantSteps (lo hi : Int) (m : Nat) : Nat :=
  ((hi - lo + 1).toNat + m - 1) / m

/-- Modelled from the spec (§4.3): the BSGS search over target `T` and range
`[lo, hi]` with table size `m` — visit the giant steps in the order of the
selected mode and return the first verified key. -/
def bsgsSearch (T lo hi : Int) (m : Nat) (mode : BSGSMode) (endo : Bool) (lam : Int)
    (recover : Nat → Nat → Int) (shuffle : List Nat → List Nat) : Option Int :=
  (modeOrder mode (numGiantSteps lo hi m) shuffle).findSome?
    (giantProbe T lo m endo lam recover)

/-! ## General helper lemmas -/

/-- Reading a written position (in range). -/
theorem getD_set_self {α : Type} (l : List α) (i : Nat) (v d : α) (h : i < l.length) :
    (l.set i v).getD i d = v := by
  simp [List.getD_eq_getElem?_getD, List.getElem?_set_self h]

/-- Reading an untouched position. -/
theorem getD_set_ne {α : Type} (l : List α) (i j : Nat) (v d : α) (h : j ≠ i) :
    (l.set i v).getD j d = l.getD j d := by
  simp [List.getD_eq_getElem?_getD, List.getElem?_set_ne (fun q => h q.symm)]

/-- Reading inside the left part of an append. -/
theorem getD_append_left {α : Type} (l l2 : List α) (i : Nat) (d : α) (h : i < l.length) :
    (l ++ l2).getD i d = l.getD i d := by
  simp [List.getD_eq_getElem?_getD, List.getElem?_append_left h]

/-- A `getD` at an in-range position is a member. -/
theorem getD_mem_of_lt {α : Type} (l : List α) (i : Nat) (d : α) (h : i < l.length) :
    l.getD i d ∈ l := by
  simp only [List.getD_eq_getElem?_getD, List.getElem?_eq_getElem h, Option.getD_some]
  exact List.getElem_mem h

/-- Or-ing a value shifted past the bits of `x` is addition (the source builds
multi-byte values with `|=` of disjoint shifted bytes). -/
theorem lor_shiftLeft_eq_add {x : Nat} (y s : Nat) (hx : x < 2 ^ s) :
    x ||| y <<< s = x + y * 2 ^ s := by
  rw [Nat.shiftLeft_eq, Nat.lor_comm, mul_comm]
  rw [← Nat.mul_add_lt_is_or hx y]
  ring

/-- Or-ing a fresh power of two into a number below it is addition. -/
theorem lor_two_pow_eq_add {x : Nat} (b : Nat) (hx : x < 2 ^ b) :
    x ||| 2 ^ b = x + 2 ^ b := by
  have h := lor_shiftLeft_eq_add (x := x) 1 b hx
  rw [Nat.shiftLeft_eq, one_mul] at h
  simpa using h

/-! ## C10 — submit to a stopped pool -/

/-- C10: submitting to a shut-down thread pool raises
"Cannot submit to stopped thread pool" and leaves the pool state unchanged —
nothing is enqueued and neither `tasks_submitted` nor `tasks_pending` moves —
for `submit`, `submit_with_priority` and `submit_batch` alike (the stop check
precedes every mutation). -/
theorem submit_to_stopped_pool_fails (s : ThreadPoolState) (pri : TaskPriority)
    (sq : Nat) (sqs : List Nat) (h : s.stop_ = true) :
    ThreadPool.submit_with_priority s pri sq = (some "Cannot submit to stopped thread pool", s) ∧
    ThreadPool.submit s sq = (some "Cannot submit to stopped thread pool", s) ∧
    ThreadPool.submit_batch s sqs pri = (some "Cannot submit to stopped thread pool", s) := by
  refine ⟨?_, ?_, ?_⟩ <;>
    simp [ThreadPool.submit, ThreadPool.submit_with_priority, ThreadPool.submit_batch, h]

/-- Witness for `submit_to_stopped_pool_fails` at a concrete stopped pool. -/
theorem submit_to_stopped_pool_fails_witness :
    (⟨true, [], 3, 0⟩ : ThreadPoolState).stop_ = true ∧
    ThreadPool.submit ⟨true, [], 3, 0⟩ 7 =
      (some "Cannot submit to stopped thread pool", ⟨true, [], 3, 0⟩) :=
  ⟨rfl, (submit_to_stopped_pool_fails ⟨true, [], 3, 0⟩ TaskPriority.NORMAL 7 [1, 2] rfl).2.1⟩

/-! ## C2 — KeyRange::split stub -/

/-- C2: evaluation of the stub `KeyRange::split` at the failing input: on the
range `[0, 9]` (size 10) with `n = 2` the code returns the whole range as the
single part, while the specified partition has `⌈size / n⌉ = 5` sub-ranges
(and under the reading "split into n parts", 2 of them) — not 1. -/
theorem split_stub_returns_whole_range :
    KeyRange.split ⟨UInt256.ofU64 0, UInt256.ofU64 9⟩ 2 =
      [⟨UInt256.ofU64 0, UInt256.ofU64 9⟩] ∧
    ((KeyRange.size ⟨UInt256.ofU64 0, UInt256.ofU64 9⟩).toNat + 2 - 1) / 2 = 5 ∧
    (KeyRange.split ⟨UInt256.ofU64 0, UInt256.ofU64 9⟩ 2).length = 1 := by
  refine ⟨rfl, by decide, rfl⟩

/-! ## C5 — parallel_for -/

/-- Concatenating the per-chunk index ranges of the chunk loop yields exactly
the indices `[i, e)` in order. -/
theorem chunkLoop_flatten (e cs : Nat) (hcs : 0 < cs) :
    ∀ i, ((chunkLoop e cs i).flatMap fun c => List.range' c.1 (c.2 - c.1)) =
      List.range' i (e - i) := by
  have H : ∀ d i, e - i ≤ d →
      ((chunkLoop e cs i).flatMap fun c => List.range' c.1 (c.2 - c.1)) =
        List.range' i (e - i) := by
    intro d
    induction d with
    | zero =>
      intro i hi
      rw [chunkLoop]
      have hni : ¬(i < e ∧ 0 < cs) := by omega
      have he : e - i = 0 := by omega
      simp [hni, he]
    | succ d ih =>
      intro i hi
      rw [chunkLoop]
      by_cases hc : i < e ∧ 0 < cs
      · rw [dif_pos hc]
        simp only [List.flatMap_cons]
        rw [ih (i + cs) (by omega)]
        rcases le_or_lt (i + cs) e with h1 | h1
        · have hmin : min (i + cs) e = i + cs := by omega
          rw [hmin]
          have happ := List.range'_append_1 i (i + cs - i) (e - (i + cs))
          have h2 : i + (i + cs - i) = i + cs := by omega
          rw [h2] at happ
          rw [happ]
          congr 1
          omega
        · have hmin : min (i + cs) e = e := by omega
          have h2 : e - (i + cs) = 0 := by omega
          rw [hmin, h2]
          simp
      · rw [dif_neg hc]
        have he : e - i = 0 := by omega
        simp [he]
  intro i
  exact H (e - i) i le_rfl

/-- C5: `parallel_for(pool, start, end, f)` with automatic chunking invokes `f`
exactly on the indices of `[start, end)`: the concatenation of the chunk tasks'
index ranges equals the index list of the sequential loop (hence the side
effects agree as multisets), and the chunk size used when `chunk_size = 0` is
`max(1, (end - start) / (pool.size() * 4))`. -/
theorem parallel_for_matches_sequential (poolSize start e : Nat) (_hpool : 1 ≤ poolSize) :
    parallel_for_indices poolSize start e 0 = List.range' start (e - start) ∧
    effectiveChunkSize poolSize (e - start) 0 = max 1 ((e - start) / (poolSize * 4)) := by
  constructor
  · unfold parallel_for_indices
    by_cases hse : start ≥ e
    · have he : e - start = 0 := by omega
      simp [hse, he]
    · rw [if_neg hse]
      refine chunkLoop_flatten e _ ?_ start
      unfold effectiveChunkSize
      simp only [if_pos rfl]
      exact Nat.lt_of_lt_of_le Nat.one_pos (le_max_left 1 _)
  · rfl

/-- Witness for `parallel_for_matches_sequential` on a 4-thread pool and the
range `[3, 20)`. -/
theorem parallel_for_matches_sequential_witness :
    1 ≤ 4 ∧ parallel_for_indices 4 3 20 0 = List.range' 3 17 :=
  ⟨by decide, by simpa using (parallel_for_matches_sequential 4 3 20 (by decide)).1⟩

/-! ## C8 — pause and the worker loop -/

/-- In a workforce whose members are all waiting or exited, no indexed read
yields `ready` (the out-of-range default is `exited`). -/
theorem getD_not_ready (ws : List WorkerPhase) (w : Nat)
    (hw : ∀ p ∈ ws, p = WorkerPhase.waiting ∨ p = WorkerPhase.exited) :
    ws.getD w WorkerPhase.exited ≠ WorkerPhase.ready := by
  rcases Nat.lt_or_ge w ws.length with h | h
  · have hm := getD_mem_of_lt ws w WorkerPhase.exited h
    intro hcon
    rcases hw _ hm with h2 | h2 <;> rw [hcon] at h2 <;> exact WorkerPhase.noConfusion h2
  · simp [List.getD_eq_getElem?_getD, List.getElem?_eq_none h]

/-- Same, for `running`. -/
theorem getD_not_running (ws : List WorkerPhase) (w : Nat)
    (hw : ∀ p ∈ ws, p = WorkerPhase.waiting ∨ p = WorkerPhase.exited) :
    ws.getD w WorkerPhase.exited ≠ WorkerPhase.running := by
  rcases Nat.lt_or_ge w ws.length with h | h
  · have hm := getD_mem_of_lt ws w WorkerPhase.exited h
    intro hcon
    rcases hw _ hm with h2 | h2 <;> rw [hcon] at h2 <;> exact WorkerPhase.noConfusion h2
  · simp [List.getD_eq_getElem?_getD, List.getElem?_eq_none h]

/-- C8 (amended): once `pause()` has completed and every worker is idle — i.e.
blocked in `condition_.wait` or exited, none sitting between its pause check and
its `tasks_.pop()` — then along every enabled step sequence that contains no
`resume()`, no worker passes the check and no task is ever popped: the pool
stays paused, the workers stay idle, and the queue never shrinks. -/
theorem paused_pool_pops_nothing_until_resume (labs : List PoolLabel) :
    ∀ s s2 : PauseModelState,
      s.paused_ = true →
      (∀ p ∈ s.workers, p = WorkerPhase.waiting ∨ p = WorkerPhase.exited) →
      PoolLabel.resume ∉ labs →
      runTrace s labs = some s2 →
      (∀ w, PoolLabel.pop w ∉ labs) ∧ s2.paused_ = true ∧ s.queued ≤ s2.queued ∧
        (∀ p ∈ s2.workers, p = WorkerPhase.waiting ∨ p = WorkerPhase.exited) := by
  induction labs with
  | nil =>
    intro s s2 hp hw _ hrun
    simp only [runTrace, Option.some.injEq] at hrun
    subst hrun
    exact ⟨by simp, hp, le_rfl, hw⟩
  | cons lab rest ih =>
    intro s s2 hp hw hnr hrun
    have hnr2 : PoolLabel.resume ∉ rest := by
      intro hmem; exact hnr (List.mem_cons_of_mem _ hmem)
    cases lab with
    | pause =>
      simp only [runTrace, pstep] at hrun
      have h := ih { s with paused_ := true } s2 rfl hw hnr2 hrun
      refine ⟨fun w => ?_, h.2.1, h.2.2.1, h.2.2.2⟩
      intro hmem
      rcases List.mem_cons.mp hmem with h3 | h3
      · exact PoolLabel.noConfusion h3
      · exact (h.1 w) h3
    | resume => exact absurd (List.mem_cons_self _ _) hnr
    | submit =>
      simp only [runTrace, pstep] at hrun
      by_cases hc : s.stop_ = false ∧ noLockHeld s.workers = true
      · rw [if_pos hc] at hrun
        simp only at hrun
        have h := ih { s with queued := s.queued + 1 } s2 hp hw hnr2 hrun
        refine ⟨fun w => ?_, h.2.1, by have := h.2.2.1; simp at this; omega, h.2.2.2⟩
        intro hmem
        rcases List.mem_cons.mp hmem with h3 | h3
        · exact PoolLabel.noConfusion h3
        · exact (h.1 w) h3
      · rw [if_neg hc] at hrun
        exact Option.noConfusion hrun
    | shutdown =>
      simp only [runTrace, pstep] at hrun
      by_cases hc : noLockHeld s.workers = true
      · rw [if_pos hc] at hrun
        simp only at hrun
        have h := ih { s with stop_ := true } s2 hp hw hnr2 hrun
        refine ⟨fun w => ?_, h.2.1, h.2.2.1, h.2.2.2⟩
        intro hmem
        rcases List.mem_cons.mp hmem with h3 | h3
        · exact PoolLabel.noConfusion h3
        · exact (h.1 w) h3
      · rw [if_neg hc] at hrun
        exact Option.noConfusion hrun
    | check w =>
      simp only [runTrace, pstep] at hrun
      rw [if_neg (by intro hc; rw [hp] at hc; exact Bool.noConfusion hc.2.2.2.1)] at hrun
      exact Option.noConfusion hrun
    | pop w =>
      simp only [runTrace, pstep] at hrun
      rw [if_neg (by intro hc; exact getD_not_ready s.workers w hw hc.1)] at hrun
      exact Option.noConfusion hrun
    | finish w =>
      simp only [runTrace, pstep] at hrun
      rw [if_neg (by intro hc; exact getD_not_running s.workers w hw hc)] at hrun
      exact Option.noConfusion hrun
    | exitWorker w =>
      simp only [runTrace, pstep] at hrun
      by_cases hc : w < s.workers.length ∧ s.workers.getD w WorkerPhase.exited =
          WorkerPhase.waiting ∧ s.stop_ = true ∧ s.queued = 0 ∧ noLockHeld s.workers = true
      · rw [if_pos hc] at hrun
        simp only at hrun
        have hw2 : ∀ p ∈ s.workers.set w WorkerPhase.exited,
            p = WorkerPhase.waiting ∨ p = WorkerPhase.exited := by
          intro p hmem
          rcases List.mem_or_eq_of_mem_set hmem with h3 | h3
          · exact hw _ h3
          · exact Or.inr h3
        have h := ih { s with workers := s.workers.set w WorkerPhase.exited } s2 hp hw2
          hnr2 hrun
        refine ⟨fun w2 => ?_, h.2.1, h.2.2.1, h.2.2.2⟩
        intro hmem
        rcases List.mem_cons.mp hmem with h3 | h3
        · exact PoolLabel.noConfusion h3
        · exact (h.1 w2) h3
      · rw [if_neg hc] at hrun
        exact Option.noConfusion hrun

/-- Witness for `paused_pool_pops_nothing_until_resume`: a paused single-worker
pool takes a submit and a shutdown but pops nothing. -/
theorem paused_pool_pops_nothing_until_resume_witness :
    (⟨false, true, 2, [WorkerPhase.waiting]⟩ : PauseModelState).paused_ = true ∧
    runTrace ⟨false, true, 2, [WorkerPhase.waiting]⟩ [PoolLabel.submit, PoolLabel.shutdown] =
      some ⟨true, true, 3, [WorkerPhase.waiting]⟩ ∧
    (∀ w, PoolLabel.pop w ∉ [PoolLabel.submit, PoolLabel.shutdown]) :=
  ⟨rfl, by decide,
    (paused_pool_pops_nothing_until_resume [PoolLabel.submit, PoolLabel.shutdown]
      ⟨false, true, 2, [WorkerPhase.waiting]⟩ ⟨true, true, 3, [WorkerPhase.waiting]⟩
      rfl (by intro p hp; simp only [List.mem_singleton] at hp; exact Or.inl hp)
      (by decide) (by decide)).1⟩

/-- C8 (counterexample to the claim as stated): the pause store is lock-free,
so it can land between a worker's pause check and its pop.  Concretely, from a
fresh one-worker pool: `submit` a task, the worker passes its check (becomes
`ready`, holding the lock), then `pause()` completes — and the pop step still
fires afterwards, dequeuing a task while `paused_ = true`.  Hence "while the
pool is paused, no queued task is ever popped" is violated. -/
theorem pop_fires_while_paused :
    runTrace ⟨false, false, 0, [WorkerPhase.waiting]⟩
        [PoolLabel.submit, PoolLabel.check 0, PoolLabel.pause] =
      some ⟨false, true, 1, [WorkerPhase.ready]⟩ ∧
    (⟨false, true, 1, [WorkerPhase.ready]⟩ : PauseModelState).paused_ = true ∧
    pstep ⟨false, true, 1, [WorkerPhase.ready]⟩ (PoolLabel.pop 0) =
      some ⟨false, true, 0, [WorkerPhase.running]⟩ := by
  refine ⟨by decide, rfl, by decide⟩

/-! ## C3 — bloom filter has no false negatives -/

/-- Masking with a single bit is nonzero iff that bit is set. -/
theorem and_shift_ne_zero_iff (a k : Nat) : a &&& (1 <<< k) ≠ 0 ↔ a.testBit k = true := by
  have h1 : (1 : Nat) <<< k = 2 ^ k := by rw [Nat.shiftLeft_eq, one_mul]
  rw [h1, Nat.and_two_pow]
  cases h : a.testBit k <;> simp [h]

/-- One `bits_[i] |= v` update of the bloom byte vector preserves every set bit. -/
theorem bloom_set_preserves (bs : List Nat) (i v q : Nat)
    (h : bs.getD (q / 8) 0 &&& (1 <<< (q % 8)) ≠ 0) :
    (bs.set i (bs.getD i 0 ||| v)).getD (q / 8) 0 &&& (1 <<< (q % 8)) ≠ 0 := by
  rcases Nat.lt_or_ge i bs.length with hi | hi
  · by_cases hqi : q / 8 = i
    · subst hqi
      rw [getD_set_self _ _ _ _ hi]
      rw [and_shift_ne_zero_iff] at h ⊢
      simp only [Nat.testBit_lor, h, Bool.true_or]
    · rw [getD_set_ne _ _ _ _ _ hqi]
      exact h
  · rw [List.set_eq_of_length_le hi]
    exact h

/-- The fold inside `SimpleBloomFilter::add` preserves every set bit. -/
theorem bloom_addFold_preserves (data : List Nat) (nb : Nat) (L : List Nat) :
    ∀ (bs : List Nat) (q : Nat), bs.getD (q / 8) 0 &&& (1 <<< (q % 8)) ≠ 0 →
      (L.foldl
          (fun bs2 i =>
            let pos := simple_hash data i % nb
            bs2.set (pos / 8) (bs2.getD (pos / 8) 0 ||| (1 <<< (pos % 8)))) bs).getD
          (q / 8) 0 &&& (1 <<< (q % 8)) ≠ 0 := by
  induction L with
  | nil => intro bs q h; exact h
  | cons a L ih =>
    intro bs q h
    simp only [List.foldl_cons]
    exact ih _ q (bloom_set_preserves bs _ _ q h)

/-- The fold inside `SimpleBloomFilter::add` does not change the byte count. -/
theorem bloom_addFold_length (data : List Nat) (nb : Nat) (L : List Nat) :
    ∀ bs : List Nat,
      (L.foldl
          (fun bs2 i =>
            let pos := simple_hash data i % nb
            bs2.set (pos / 8) (bs2.getD (pos / 8) 0 ||| (1 <<< (pos % 8)))) bs).length =
        bs.length := by
  induction L with
  | nil => intro bs; rfl
  | cons a L ih =>
    intro bs
    simp only [List.foldl_cons]
    rw [ih]
    exact List.length_set ..

/-- After the fold of `SimpleBloomFilter::add` every bit addressed by a seed of
the list is set (given `num_bits >= 1` and a byte vector that is long enough). -/
theorem bloom_addFold_sets (data : List Nat) (nb : Nat) (hnb : 0 < nb) (L : List Nat) :
    ∀ bs : List Nat, (nb + 7) / 8 ≤ bs.length → ∀ i ∈ L,
      (L.foldl
          (fun bs2 i =>
            let pos := simple_hash data i % nb
            bs2.set (pos / 8) (bs2.getD (pos / 8) 0 ||| (1 <<< (pos % 8)))) bs).getD
          (simple_hash data i % nb / 8) 0 &&& (1 <<< (simple_hash data i % nb % 8)) ≠ 0 := by
  induction L with
  | nil => intro bs _ i hi; exact absurd hi (List.not_mem_nil i)
  | cons a L ih =>
    intro bs hlen i hi
    simp only [List.foldl_cons]
    rcases List.mem_cons.mp hi with rfl | hi2
    · apply bloom_addFold_preserves
      have hpos : simple_hash data i % nb < nb := Nat.mod_lt _ hnb
      have hidx : simple_hash data i % nb / 8 < bs.length := by omega
      rw [getD_set_self _ _ _ _ hidx]
      rw [and_shift_ne_zero_iff]
      have h1 : (1 : Nat) <<< (simple_hash data i % nb % 8) =
          2 ^ (simple_hash data i % nb % 8) := by
        rw [Nat.shiftLeft_eq, one_mul]
      rw [h1, Nat.testBit_lor, Nat.testBit_two_pow_self, Bool.or_true]
    · apply ih
      · rw [List.length_set]; exact hlen
      · exact hi2

/-- `add` keeps the filter parameters. -/
theorem bloom_add_params (f : SimpleBloomFilter) (d : List Nat) :
    (f.add d).num_bits_ = f.num_bits_ ∧ (f.add d).num_hashes_ = f.num_hashes_ := ⟨rfl, rfl⟩

/-- `addAll` keeps the filter parameters. -/
theorem bloom_addAll_params (later : List (List Nat)) :
    ∀ f : SimpleBloomFilter,
      (f.addAll later).num_bits_ = f.num_bits_ ∧
      (f.addAll later).num_hashes_ = f.num_hashes_ := by
  induction later with
  | nil => intro f; exact ⟨rfl, rfl⟩
  | cons d later ih =>
    intro f
    have h := ih (f.add d)
    exact ⟨h.1, h.2⟩

/-- Every bit set in the filter stays set through any further `add`s. -/
theorem bloom_addAll_preserves (later : List (List Nat)) :
    ∀ (f : SimpleBloomFilter) (q : Nat),
      f.bits_.getD (q / 8) 0 &&& (1 <<< (q % 8)) ≠ 0 →
      (f.addAll later).bits_.getD (q / 8) 0 &&& (1 <<< (q % 8)) ≠ 0 := by
  induction later with
  | nil => intro f q h; exact h
  | cons d later ih =>
    intro f q h
    refine ih (f.add d) q ?_
    exact bloom_addFold_preserves d f.num_bits_ _ f.bits_ q h

/-- C3: the bloom filter has no false negatives, and positives are stable.
For every filter state `f` (any `num_bits >= 1`, any `num_hashes`, any earlier
sequence of `add`s producing `f`), once `e` is added, `possibly_contains(e)`
returns true after any further sequence of `add`s. -/
theorem bloom_no_false_negatives (f : SimpleBloomFilter) (e : List Nat)
    (later : List (List Nat)) (hwf : f.Wf) (hnb : 1 ≤ f.num_bits_) :
    ((f.add e).addAll later).possibly_contains e = true := by
  unfold SimpleBloomFilter.possibly_contains
  rw [List.all_eq_true]
  have hnbq : ((f.add e).addAll later).num_bits_ = f.num_bits_ :=
    ((bloom_addAll_params later (f.add e)).1).trans rfl
  have hnhq : ((f.add e).addAll later).num_hashes_ = f.num_hashes_ :=
    ((bloom_addAll_params later (f.add e)).2).trans rfl
  intro i hi
  rw [hnhq, List.mem_range] at hi
  show decide (((f.add e).addAll later).bits_.getD
      (simple_hash e i % ((f.add e).addAll later).num_bits_ / 8) 0 &&&
      1 <<< (simple_hash e i % ((f.add e).addAll later).num_bits_ % 8) ≠ 0) = true
  rw [decide_eq_true_eq, hnbq]
  apply bloom_addAll_preserves
  show (f.add e).bits_.getD _ 0 &&& _ ≠ 0
  unfold SimpleBloomFilter.add
  apply bloom_addFold_sets e f.num_bits_ (by omega) (List.range f.num_hashes_) f.bits_
  · unfold SimpleBloomFilter.Wf at hwf
    omega
  · exact List.mem_range.mpr hi

/-- Witness for `bloom_no_false_negatives`: a fresh 100-bit, 7-hash filter,
element `[1, 2, 3]`, one later insertion. -/
theorem bloom_no_false_negatives_witness :
    (SimpleBloomFilter.init 100 7).Wf ∧ 1 ≤ (SimpleBloomFilter.init 100 7).num_bits_ ∧
    (((SimpleBloomFilter.init 100 7).add [1, 2, 3]).addAll [[9, 9]]).possibly_contains
      [1, 2, 3] = true :=
  ⟨by decide, by decide,
    bloom_no_false_negatives (SimpleBloomFilter.init 100 7) [1, 2, 3] [[9, 9]]
      (by decide) (by decide)⟩

/-! ## C1 — BSGS end-to-end -/

/-- The bothways cursor pair visits every index of `[lo, hi)`. -/
theorem bothwaysAux_covers (d : Nat) :
    ∀ lo hi j, hi - lo ≤ d → lo ≤ j → j < hi → j ∈ bothwaysAux lo hi := by
  induction d with
  | zero => intro lo hi j hd h1 h2; omega
  | succ d ih =>
    intro lo hi j hd h1 h2
    rw [bothwaysAux, if_pos (by omega)]
    by_cases hj1 : j = lo
    · exact hj1 ▸ List.mem_cons_self _ _
    · by_cases hj2 : j = hi - 1
      · rw [hj2]; exact List.mem_cons_of_mem _ (List.mem_cons_self _ _)
      · exact List.mem_cons_of_mem _ (List.mem_cons_of_mem _
          (ih (lo + 1) (hi - 1) j (by omega) (by omega) (by omega)))

/-- The dance stride visits every index of `[lo, hi)`. -/
theorem danceAux_covers (d : Nat) :
    ∀ lo hi fwd j, hi - lo ≤ d → lo ≤ j → j < hi → j ∈ danceAux lo hi fwd := by
  induction d with
  | zero => intro lo hi fwd j hd h1 h2; omega
  | succ d ih =>
    intro lo hi fwd j hd h1 h2
    rw [danceAux, if_pos (by omega)]
    cases fwd with
    | true =>
      rw [if_pos rfl]
      by_cases hs : lo + 1 < hi
      · rw [if_pos hs]
        by_cases hj1 : j = lo
        · exact hj1 ▸ List.mem_cons_self _ _
        · by_cases hj2 : j = lo + 1
          · rw [hj2]; exact List.mem_cons_of_mem _ (List.mem_cons_self _ _)
          · exact List.mem_cons_of_mem _ (List.mem_cons_of_mem _
              (ih (lo + 2) hi false j (by omega) (by omega) (by omega)))
      · rw [if_neg hs]
        have : j = lo := by omega
        rw [this]; exact List.mem_singleton.mpr rfl
    | false =>
      rw [if_neg Bool.false_ne_true]
      by_cases hs : lo + 1 < hi
      · rw [if_pos hs]
        by_cases hj1 : j = hi - 1
        · exact hj1 ▸ List.mem_cons_self _ _
        · by_cases hj2 : j = hi - 2
          · rw [hj2]; exact List.mem_cons_of_mem _ (List.mem_cons_self _ _)
          · exact List.mem_cons_of_mem _ (List.mem_cons_of_mem _
              (ih lo (hi - 2) true j (by omega) (by omega) (by omega)))
      · rw [if_neg hs]
        have : j = lo := by omega
        rw [this]; exact List.mem_singleton.mpr rfl

/-- Every giant-step index below `J` is visited, in every search mode. -/
theorem modeOrder_covers (mode : BSGSMode) (J j : Nat) (shuffle : List Nat → List Nat)
    (hshuffle : ∀ (l : List Nat) (x : Nat), x ∈ l → x ∈ shuffle l) (hj : j < J) :
    j ∈ modeOrder mode J shuffle := by
  cases mode with
  | SEQUENTIAL => exact List.mem_range.mpr hj
  | BACKWARD => exact List.mem_reverse.mpr (List.mem_range.mpr hj)
  | BOTH => exact bothwaysAux_covers J 0 J j (by omega) (by omega) hj
  | RANDOM => exact hshuffle _ _ (List.mem_range.mpr hj)
  | DANCE => exact danceAux_covers J 0 J true j (by omega) (by omega) hj

/-- Soundness of one giant step: whatever is published passed the verification
`cand · G = T`, so in the injective group model it is the target key. -/
theorem giantProbe_sound (T lo : Int) (m : Nat) (endo : Bool) (lam : Int)
    (recover : Nat → Nat → Int) (j : Nat) (x : Int)
    (h : giantProbe T lo m endo lam recover j = some x) : x = T := by
  unfold giantProbe at h
  simp only at h
  cases hb : babyLookup m (T - lo - (j : Int) * (m : Int)) with
  | some i =>
    rw [hb] at h
    dsimp only at h
    unfold verifyKey scalarMulG at h
    by_cases hv : lo + (j : Int) * (m : Int) + (i : Int) = T
    · rw [if_pos hv] at h
      rw [Option.some.injEq] at h
      omega
    · rw [if_neg hv] at h
      exact Option.noConfusion h
  | none =>
    rw [hb] at h
    dsimp only at h
    cases endo with
    | false => exact Option.noConfusion h
    | true =>
      rw [if_pos rfl] at h
      cases hb2 : babyLookup m (lam * (T - lo - (j : Int) * (m : Int))) with
      | some i =>
        rw [hb2] at h
        dsimp only at h
        unfold verifyKey scalarMulG at h
        split at h
        · rename_i hv
          rw [Option.some.injEq] at h
          omega
        · exact Option.noConfusion h
      | none =>
        rw [hb2] at h
        exact Option.noConfusion h

/-- Completeness of the giant step at `j* = (k - lo) / m`: the baby probe hits
and the verified candidate is exactly `k`. -/
theorem giantProbe_hits (lo k : Int) (m : Nat) (endo : Bool) (lam : Int)
    (recover : Nat → Nat → Int) (hm : 0 < m) (hlo : lo ≤ k) :
    giantProbe k lo m endo lam recover ((k - lo).toNat / m) = some k := by
  have hqr : m * ((k - lo).toNat / m) + (k - lo).toNat % m = (k - lo).toNat :=
    Nat.div_add_mod _ m
  have hrm : (k - lo).toNat % m < m := Nat.mod_lt _ hm
  have hmul : (((k - lo).toNat / m : Nat) : Int) * (m : Int) =
      ((m * ((k - lo).toNat / m) : Nat) : Int) := by push_cast; ring
  have hC : k - lo - (((k - lo).toNat / m : Nat) : Int) * (m : Int) =
      (((k - lo).toNat % m : Nat) : Int) := by
    rw [hmul]; omega
  have hb : babyLookup m (k - lo - (((k - lo).toNat / m : Nat) : Int) * (m : Int)) =
      some ((k - lo).toNat % m) := by
    rw [hC]
    unfold babyLookup
    rw [if_pos ⟨Int.natCast_nonneg _, by exact_mod_cast hrm⟩]
    rw [Int.toNat_natCast]
  have hv : lo + (((k - lo).toNat / m : Nat) : Int) * (m : Int) +
      (((k - lo).toNat % m : Nat) : Int) = k := by
    rw [hmul]; omega
  simp only [giantProbe]
  rw [hb]
  dsimp only
  unfold verifyKey scalarMulG
  rw [if_pos hv, hv]

/-- If every hit of `f` equals `k` and some listed index hits, then
`findSome?` returns `k`. -/
theorem findSome?_eq_of_hits {α : Type} (js : List α) (f : α → Option Int) (k : Int)
    (hsound : ∀ j x, f j = some x → x = k) (hhit : ∃ j ∈ js, (f j).isSome) :
    js.findSome? f = some k := by
  induction js with
  | nil => rcases hhit with ⟨j, hj, _⟩; exact absurd hj (List.not_mem_nil j)
  | cons a js ih =>
    rw [List.findSome?_cons]
    cases ha : f a with
    | some x =>
      rw [hsound a x ha]
    | none =>
      apply ih
      rcases hhit with ⟨j, hj, hjs⟩
      rcases List.mem_cons.mp hj with rfl | hj2
      · rw [ha] at hjs; exact absurd hjs (by simp)
      · exact ⟨j, hj2, hjs⟩

/-- C1: BSGS end-to-end.  For every key `k` in `[lo, hi]` and every table size
`m >= 1`, the search on target `T = k · G` terminates (it is a total function)
and returns exactly `k` — in every search mode (sequential, backward, bothways,
random with any index reordering, dance), with or without the endomorphism
branch, for every endomorphism constant and every recovery map (candidates from
the endomorphism probe are verified against `T` before publication). -/
theorem bsgs_terminates_and_finds_key (lo hi k : Int) (m : Nat) (mode : BSGSMode)
    (endo : Bool) (lam : Int) (recover : Nat → Nat → Int) (shuffle : List Nat → List Nat)
    (hm : 0 < m) (hlo : lo ≤ k) (hhi : k ≤ hi)
    (hshuffle : ∀ (l : List Nat) (x : Nat), x ∈ l → x ∈ shuffle l) :
    bsgsSearch (scalarMulG k) lo hi m mode endo lam recover shuffle = some k := by
  unfold bsgsSearch scalarMulG
  apply findSome?_eq_of_hits
  · intro j x h
    exact giantProbe_sound k lo m endo lam recover j x h
  · refine ⟨(k - lo).toNat / m, ?_, ?_⟩
    · apply modeOrder_covers mode _ _ shuffle hshuffle
      unfold numGiantSteps
      have h1 : (k - lo).toNat < (hi - lo + 1).toNat := by omega
      have h2 : (k - lo).toNat / m ≤ ((hi - lo + 1).toNat - 1) / m :=
        Nat.div_le_div_right (by omega)
      have h3 : ((hi - lo + 1).toNat + m - 1) / m = ((hi - lo + 1).toNat - 1) / m + 1 := by
        have hN : (hi - lo + 1).toNat + m - 1 = ((hi - lo + 1).toNat - 1) + m := by omega
        rw [hN, Nat.add_div_right _ hm]
      rw [h3]
      exact Nat.lt_succ_of_le h2
    · rw [giantProbe_hits lo k m endo lam recover hm hlo]
      simp

/-- Witness for `bsgs_terminates_and_finds_key`: range `[1, 100]`, key 37,
table size 10, random mode with a reversing shuffle, endomorphism branch on. -/
theorem bsgs_terminates_and_finds_key_witness :
    0 < 10 ∧ (1 : Int) ≤ 37 ∧ (37 : Int) ≤ 100 ∧
    bsgsSearch (scalarMulG 37) 1 100 10 BSGSMode.RANDOM true 5 (fun _ _ => 99)
      List.reverse = some 37 :=
  ⟨by decide, by decide, by decide,
    bsgs_terminates_and_finds_key 1 100 37 10 BSGSMode.RANDOM true 5 (fun _ _ => 99)
      List.reverse (by decide) (by decide) (by decide)
      (fun _ _ hx => List.mem_reverse.mpr hx)⟩

/-! ## C6 — KeyRange::for_bits -/

/-- Setting one bit of the all-zero value yields exactly that power of two. -/
theorem toNat_set_bit_zero (pos : Nat) (hp : pos < 256) :
    (UInt256.zero.set_bit pos true).toNat = 2 ^ pos := by
  have hlt : ¬pos ≥ 256 := by omega
  have h4 : pos / 64 = 0 ∨ pos / 64 = 1 ∨ pos / 64 = 2 ∨ pos / 64 = 3 := by omega
  have hsl : (1 : Nat) <<< (pos % 64) = 2 ^ (pos % 64) := by rw [Nat.shiftLeft_eq, one_mul]
  rcases h4 with hc | hc | hc | hc
  · have hexp : pos % 64 = pos := by omega
    simp only [UInt256.set_bit, hlt, if_false, if_true, hc, UInt256.setLimb, UInt256.limb,
      UInt256.zero, UInt256.toNat, hsl, Nat.zero_or, Nat.mul_zero, Nat.add_zero, Nat.zero_add]
    rw [hexp]
  · have hexp : 64 + pos % 64 = pos := by omega
    simp only [UInt256.set_bit, hlt, if_false, if_true, hc, UInt256.setLimb, UInt256.limb,
      UInt256.zero, UInt256.toNat, hsl, Nat.zero_or, Nat.mul_zero, Nat.add_zero, Nat.zero_add]
    rw [← pow_add, hexp]
  · have hexp : 128 + pos % 64 = pos := by omega
    simp only [UInt256.set_bit, hlt, if_false, if_true, hc, UInt256.setLimb, UInt256.limb,
      UInt256.zero, UInt256.toNat, hsl, Nat.zero_or, Nat.mul_zero, Nat.add_zero, Nat.zero_add]
    rw [← pow_add, hexp]
  · have hexp : 192 + pos % 64 = pos := by omega
    simp only [UInt256.set_bit, hlt, if_false, if_true, hc, UInt256.setLimb, UInt256.limb,
      UInt256.zero, UInt256.toNat, hsl, Nat.zero_or, Nat.mul_zero, Nat.add_zero, Nat.zero_add]
    rw [← pow_add, hexp]

/-- Value of the all-ones limb pattern produced by the `for_bits` end loop. -/
theorem toNat_low_ones (k : Nat) (hk : k ≤ 256) :
    (⟨2 ^ min 64 k - 1, 2 ^ min 64 (k - 64) - 1, 2 ^ min 64 (k - 128) - 1,
      2 ^ min 64 (k - 192) - 1⟩ : UInt256).toNat = 2 ^ k - 1 := by
  unfold UInt256.toNat
  simp only
  have e64 : (2 : Nat) ^ 64 * (2 ^ 64 - 1) = 2 ^ 128 - 2 ^ 64 := by norm_num
  have e128 : (2 : Nat) ^ 128 * (2 ^ 64 - 1) = 2 ^ 192 - 2 ^ 128 := by norm_num
  have l64 : (1 : Nat) ≤ 2 ^ 64 := Nat.one_le_two_pow
  have l128 : (1 : Nat) ≤ 2 ^ 128 := Nat.one_le_two_pow
  have l192 : (1 : Nat) ≤ 2 ^ 192 := Nat.one_le_two_pow
  rcases Nat.lt_or_ge k 65 with hr | hr'
  · have m0 : min 64 k = k := by omega
    have m1 : min 64 (k - 64) = 0 := by omega
    have m2 : min 64 (k - 128) = 0 := by omega
    have m3 : min 64 (k - 192) = 0 := by omega
    rw [m0, m1, m2, m3]
    simp [pow_zero]
  rcases Nat.lt_or_ge k 129 with hr | hr''
  · have m0 : min 64 k = 64 := by omega
    have m1 : min 64 (k - 64) = k - 64 := by omega
    have m2 : min 64 (k - 128) = 0 := by omega
    have m3 : min 64 (k - 192) = 0 := by omega
    rw [m0, m1, m2, m3]
    have h1 : (2 : Nat) ^ 64 * (2 ^ (k - 64) - 1) = 2 ^ 64 * 2 ^ (k - 64) - 2 ^ 64 :=
      Nat.mul_sub_left_distrib .. |>.trans (by rw [Nat.mul_one])
    have h2 : (2 : Nat) ^ 64 * 2 ^ (k - 64) = 2 ^ k := by
      have hexp : 64 + (k - 64) = k := by omega
      rw [← pow_add, hexp]
    have h3 : (2 : Nat) ^ 64 ≤ 2 ^ k := Nat.pow_le_pow_right (by norm_num) (by omega)
    have h4 : (1 : Nat) ≤ 2 ^ (k - 64) := Nat.one_le_two_pow
    rw [h1, h2]
    simp [pow_zero]
    omega
  rcases Nat.lt_or_ge k 193 with hr | hr'''
  · have m0 : min 64 k = 64 := by omega
    have m1 : min 64 (k - 64) = 64 := by omega
    have m2 : min 64 (k - 128) = k - 128 := by omega
    have m3 : min 64 (k - 192) = 0 := by omega
    rw [m0, m1, m2, m3]
    have h1 : (2 : Nat) ^ 128 * (2 ^ (k - 128) - 1) = 2 ^ 128 * 2 ^ (k - 128) - 2 ^ 128 :=
      Nat.mul_sub_left_distrib .. |>.trans (by rw [Nat.mul_one])
    have h2 : (2 : Nat) ^ 128 * 2 ^ (k - 128) = 2 ^ k := by
      have hexp : 128 + (k - 128) = k := by omega
      rw [← pow_add, hexp]
    have h3 : (2 : Nat) ^ 128 ≤ 2 ^ k := Nat.pow_le_pow_right (by norm_num) (by omega)
    have h4 : (1 : Nat) ≤ 2 ^ (k - 128) := Nat.one_le_two_pow
    rw [h1, h2, e64]
    simp [pow_zero]
    omega
  · have m0 : min 64 k = 64 := by omega
    have m1 : min 64 (k - 64) = 64 := by omega
    have m2 : min 64 (k - 128) = 64 := by omega
    have m3 : min 64 (k - 192) = k - 192 := by omega
    rw [m0, m1, m2, m3]
    have h1 : (2 : Nat) ^ 192 * (2 ^ (k - 192) - 1) = 2 ^ 192 * 2 ^ (k - 192) - 2 ^ 192 :=
      Nat.mul_sub_left_distrib .. |>.trans (by rw [Nat.mul_one])
    have h2 : (2 : Nat) ^ 192 * 2 ^ (k - 192) = 2 ^ k := by
      have hexp : 192 + (k - 192) = k := by omega
      rw [← pow_add, hexp]
    have h3 : (2 : Nat) ^ 192 ≤ 2 ^ k := Nat.pow_le_pow_right (by norm_num) (by omega)
    have h4 : (1 : Nat) ≤ 2 ^ (k - 192) := Nat.one_le_two_pow
    rw [h1, h2, e64, e128]
    omega

/-- The `for_bits` end loop sets bits `0 .. k-1`, producing the limb pattern of
`2^k - 1`. -/
theorem endFold_closed (k : Nat) (hk : k ≤ 256) :
    (List.range k).foldl (fun acc i => acc.set_bit i true) UInt256.zero =
      ⟨2 ^ min 64 k - 1, 2 ^ min 64 (k - 64) - 1, 2 ^ min 64 (k - 128) - 1,
        2 ^ min 64 (k - 192) - 1⟩ := by
  induction k with
  | zero => decide
  | succ k ih =>
    rw [List.range_succ, List.foldl_append, ih (by omega), List.foldl_cons, List.foldl_nil]
    have hlt : ¬k ≥ 256 := by omega
    have h4 : k / 64 = 0 ∨ k / 64 = 1 ∨ k / 64 = 2 ∨ k / 64 = 3 := by omega
    have hsl : (1 : Nat) <<< (k % 64) = 2 ^ (k % 64) := by rw [Nat.shiftLeft_eq, one_mul]
    have key : ∀ o : Nat, o % 64 = 0 → o ≤ k → k < o + 64 →
        (2 ^ min 64 (k - o) - 1) ||| 2 ^ (k % 64) = 2 ^ min 64 (k + 1 - o) - 1 := by
      intro o ho hlo hhi
      have hb : k % 64 = k - o := by omega
      have hm : min 64 (k - o) = k - o := by omega
      have hm2 : min 64 (k + 1 - o) = (k - o) + 1 := by omega
      rw [hb, hm, hm2]
      rw [lor_two_pow_eq_add _ (by have := Nat.one_le_two_pow (n := k - o); omega)]
      have hp := Nat.one_le_two_pow (n := k - o)
      rw [pow_succ]
      omega
    have hkeep : ∀ o : Nat, k < o ∨ o + 64 ≤ k →
        (2 : Nat) ^ min 64 (k - o) - 1 = 2 ^ min 64 (k + 1 - o) - 1 := by
      intro o ho
      have hmm : min 64 (k - o) = min 64 (k + 1 - o) := by omega
      rw [hmm]
    rcases h4 with hc | hc | hc | hc <;>
      simp only [UInt256.set_bit, hlt, if_false, if_true, hc, UInt256.setLimb, UInt256.limb,
        hsl] <;>
      rw [UInt256.mk.injEq]
    · refine ⟨?_, hkeep 64 (by omega), hkeep 128 (by omega), hkeep 192 (by omega)⟩
      have h0 := key 0 (by omega) (by omega) (by omega)
      simpa using h0
    · exact ⟨by simpa using hkeep 0 (by omega), key 64 (by omega) (by omega) (by omega),
        hkeep 128 (by omega), hkeep 192 (by omega)⟩
    · exact ⟨by simpa using hkeep 0 (by omega), hkeep 64 (by omega),
        key 128 (by omega) (by omega) (by omega), hkeep 192 (by omega)⟩
    · exact ⟨by simpa using hkeep 0 (by omega), hkeep 64 (by omega), hkeep 128 (by omega),
        key 192 (by omega) (by omega) (by omega)⟩

/-- C6: `KeyRange::for_bits(n)` returns `[2^(n-1), 2^n - 1]` for `1 <= n <= 256`
and fails fast with the validation error (producing no range) for every other
bit count. -/
theorem for_bits_range_and_validation :
    (∀ n : Nat, 1 ≤ n → n ≤ 256 →
      ∃ r, KeyRange.for_bits (n : Int) = Except.ok r ∧
        r.start.toNat = 2 ^ (n - 1) ∧ r.end_.toNat = 2 ^ n - 1) ∧
    (∀ z : Int, z ≤ 0 ∨ 256 < z →
      KeyRange.for_bits z = Except.error "Bit count must be between 1 and 256") := by
  constructor
  · intro n h1 h256
    unfold KeyRange.for_bits
    rw [if_neg (by omega)]
    refine ⟨_, rfl, ?_, ?_⟩
    · show (UInt256.zero.set_bit ((n : Int).toNat - 1) true).toNat = 2 ^ (n - 1)
      rw [Int.toNat_natCast]
      exact toNat_set_bit_zero (n - 1) (by omega)
    · show ((List.range (n : Int).toNat).foldl (fun acc i => acc.set_bit i true)
          UInt256.zero).toNat = 2 ^ n - 1
      rw [Int.toNat_natCast, endFold_closed n h256]
      exact toNat_low_ones n h256
  · intro z hz
    unfold KeyRange.for_bits
    rw [if_pos (by omega)]

/-- Witness for `for_bits_range_and_validation` at `n = 8` and `z = 0`. -/
theorem for_bits_range_and_validation_witness :
    (1 ≤ 8 ∧ 8 ≤ 256 ∧
      ∃ r, KeyRange.for_bits ((8 : Nat) : Int) = Except.ok r ∧
        r.start.toNat = 2 ^ (8 - 1) ∧ r.end_.toNat = 2 ^ 8 - 1) ∧
    ((0 : Int) ≤ 0 ∨ 256 < (0 : Int)) ∧
    KeyRange.for_bits 0 = Except.error "Bit count must be between 1 and 256" :=
  ⟨⟨by decide, by decide, for_bits_range_and_validation.1 8 (by decide) (by decide)⟩,
    Or.inl (by decide), for_bits_range_and_validation.2 0 (Or.inl (by decide))⟩

/-! ## C9 — (a + b) - b = a on UInt256 -/

/-- Closed form of one borrow-chain step: the 64-bit wrap in
`b = other.limbs_[i] + borrow` (including `b2 = 0` when the limb is `2^64 - 1`
with a borrow pending) produces exactly subtraction mod 2^64 with the usual
outgoing borrow. -/
theorem subLimb_eq (a b c : Nat) (ha : a < 2 ^ 64) (hb : b < 2 ^ 64) (hc : c ≤ 1) :
    UInt256.subLimb a b c =
      ((a + 2 ^ 64 - (b + c)) % 2 ^ 64, if a < b + c then 1 else 0) := by
  unfold UInt256.subLimb
  rcases Nat.lt_or_ge (b + c) (2 ^ 64) with hw | hw
  · rw [Nat.mod_eq_of_lt hw]
    by_cases hcond : b + c < c ∨ a < b + c
    · rw [if_pos hcond]
      have hlt : a < b + c := by omega
      rw [if_pos hlt, Prod.mk.injEq]
      refine ⟨?_, rfl⟩
      have hbc1 : 1 ≤ b + c := by omega
      have h2 : (2 ^ 64 - 1 - (b + c) + 1) % 2 ^ 64 = 2 ^ 64 - (b + c) := by
        rw [Nat.mod_eq_of_lt (by omega)]
        omega
      rw [h2]
      have h3 : a + (2 ^ 64 - (b + c)) = a + 2 ^ 64 - (b + c) := by omega
      rw [h3]
    · rw [if_neg hcond]
      have hge : b + c ≤ a := by omega
      rw [if_neg (by omega), Prod.mk.injEq]
      refine ⟨?_, rfl⟩
      have h2 : a + 2 ^ 64 - (b + c) = (a - (b + c)) + 2 ^ 64 := by omega
      rw [h2, Nat.add_mod_right, Nat.mod_eq_of_lt (by omega)]
  · have hb2 : b + c = 2 ^ 64 := by omega
    have hc1 : c = 1 := by omega
    have hm : (b + c) % 2 ^ 64 = 0 := by omega
    rw [hm, if_pos (Or.inl (by omega)), Prod.mk.injEq]
    refine ⟨?_, by rw [if_pos (by omega)]⟩
    have h3 : (2 ^ 64 - 1 - 0 + 1) % 2 ^ 64 = 0 := by norm_num
    rw [h3, Nat.add_zero, Nat.mod_eq_of_lt ha]
    have h4 : a + 2 ^ 64 - (b + c) = a := by omega
    rw [h4, Nat.mod_eq_of_lt ha]

/-- The limb carry chain of `operator+` computes addition mod 2^256. -/
theorem add_limbs (a b : UInt256) (ha : a.Wf) (hb : b.Wf) :
    (a.add b).toNat = (a.toNat + b.toNat) % 2 ^ 256 ∧ (a.add b).Wf := by
  obtain ⟨ha0, ha1, ha2, ha3⟩ := ha
  obtain ⟨hb0, hb1, hb2, hb3⟩ := hb
  unfold UInt256.add UInt256.toNat UInt256.Wf
  simp only
  refine ⟨?_, ?_, ?_, ?_, ?_⟩ <;> omega

/-- A borrow is never more than 1. -/
theorem ite_le_one {P : Prop} [Decidable P] : (if P then 1 else 0) ≤ 1 := by
  split <;> omega

/-- The limb borrow chain of `operator-` computes subtraction mod 2^256. -/
theorem sub_limbs (a b : UInt256) (ha : a.Wf) (hb : b.Wf) :
    (a.sub b).toNat = (a.toNat + 2 ^ 256 - b.toNat) % 2 ^ 256 ∧ (a.sub b).Wf := by
  obtain ⟨ha0, ha1, ha2, ha3⟩ := ha
  obtain ⟨hb0, hb1, hb2, hb3⟩ := hb
  unfold UInt256.sub
  rw [subLimb_eq _ _ _ ha0 hb0 (by omega)]
  simp only
  rw [subLimb_eq _ _ _ ha1 hb1 ite_le_one]
  simp only
  rw [subLimb_eq _ _ _ ha2 hb2 ite_le_one]
  simp only
  rw [subLimb_eq _ _ _ ha3 hb3 ite_le_one]
  unfold UInt256.toNat UInt256.Wf
  simp only
  split_ifs <;> refine ⟨?_, ?_, ?_, ?_, ?_⟩ <;> omega

/-- Well-formed values with equal denotations have equal limbs. -/
theorem toNat_inj (x y : UInt256) (hx : x.Wf) (hy : y.Wf) (h : x.toNat = y.toNat) :
    x = y := by
  cases x with
  | mk x0 x1 x2 x3 =>
    cases y with
    | mk y0 y1 y2 y3 =>
      obtain ⟨hx0, hx1, hx2, hx3⟩ := hx
      obtain ⟨hy0, hy1, hy2, hy3⟩ := hy
      unfold UInt256.toNat at h
      simp only at h hx0 hx1 hx2 hx3 hy0 hy1 hy2 hy3
      rw [UInt256.mk.injEq]
      refine ⟨?_, ?_, ?_, ?_⟩ <;> omega

/-- C9: for all well-formed `UInt256` values (the uint64 limb invariant of the
C++ type), `(a + b) - b = a` — addition and subtraction computed by the 4x64
carry chain of `operator+` and the borrow chain of `operator-`, wrapping
mod 2^256; the borrow-chain wrap case (a limb of `b` equal to `2^64 - 1` with a
pending borrow) is part of `subLimb_eq`. -/
theorem add_sub_cancel_uint256 (a b : UInt256) (ha : a.Wf) (hb : b.Wf) :
    a + b - b = a := by
  show (a.add b).sub b = a
  have h1 := add_limbs a b ha hb
  have h2 := sub_limbs (a.add b) b h1.2 hb
  apply toNat_inj _ _ h2.2 ha
  rw [h2.1, h1.1]
  obtain ⟨ha0, ha1, ha2, ha3⟩ := ha
  obtain ⟨hb0, hb1, hb2, hb3⟩ := hb
  have hA : a.toNat < 2 ^ 256 := by unfold UInt256.toNat; omega
  have hB : b.toNat < 2 ^ 256 := by unfold UInt256.toNat; omega
  omega

/-- Witness for `add_sub_cancel_uint256` at the borrow-chain wrap case:
`b.l0 = b.l1 = 2^64 - 1`, so subtracting back runs with a pending borrow into a
limb holding `2^64 - 1`. -/
theorem add_sub_cancel_uint256_witness :
    (⟨1, 0, 0, 0⟩ : UInt256).Wf ∧ (⟨2 ^ 64 - 1, 2 ^ 64 - 1, 0, 0⟩ : UInt256).Wf ∧
    (⟨1, 0, 0, 0⟩ : UInt256) + ⟨2 ^ 64 - 1, 2 ^ 64 - 1, 0, 0⟩ -
        ⟨2 ^ 64 - 1, 2 ^ 64 - 1, 0, 0⟩ = ⟨1, 0, 0, 0⟩ :=
  ⟨by decide, by decide, add_sub_cancel_uint256 _ _ (by decide) (by decide)⟩

/-! ## C7 — to_bytes / from_bytes -/

/-- Byte `31 - (i*8 + j)` of `to_bytes` is byte `j` of limb `i` — the inverse
of the index map used by the `to_bytes` loop. -/
theorem to_bytes_getD (x : UInt256) (i j : Nat) (hi : i < 4) (hj : j < 8) :
    x.to_bytes.getD (31 - (i * 8 + j)) 0 = x.limb i / 2 ^ (j * 8) % 256 := by
  have hp : 31 - (i * 8 + j) < x.to_bytes.length := by
    unfold UInt256.to_bytes
    rw [List.length_ofFn]
    omega
  rw [List.getD_eq_getElem?_getD, List.getElem?_eq_getElem hp, Option.getD_some]
  unfold UInt256.to_bytes
  simp only [List.getElem_ofFn]
  have e1 : 31 - (31 - (i * 8 + j)) = i * 8 + j := by omega
  rw [e1]
  have e2 : (i * 8 + j) / 8 = i := by omega
  have e3 : (i * 8 + j) % 8 = j := by omega
  rw [e2, e3, Nat.shiftRight_eq_div_pow]

/-- Reassembling the eight bytes of one limb with `|=` and shifts gives the
limb back. -/
theorem limbFromBytes_to_bytes (x : UInt256) (i : Nat) (hi : i < 4)
    (hl : x.limb i < 2 ^ 64) :
    UInt256.limbFromBytes x.to_bytes i = x.limb i := by
  unfold UInt256.limbFromBytes
  have hr8 : List.range 8 = [0, 1, 2, 3, 4, 5, 6, 7] := rfl
  rw [hr8]
  simp only [List.foldl_cons, List.foldl_nil]
  rw [to_bytes_getD x i 0 hi (by omega), to_bytes_getD x i 1 hi (by omega),
    to_bytes_getD x i 2 hi (by omega), to_bytes_getD x i 3 hi (by omega),
    to_bytes_getD x i 4 hi (by omega), to_bytes_getD x i 5 hi (by omega),
    to_bytes_getD x i 6 hi (by omega), to_bytes_getD x i 7 hi (by omega)]
  simp (disch := omega) only [lor_shiftLeft_eq_add]
  omega

/-- Each byte of `to_bytes` is the corresponding big-endian byte of the value:
byte `p` holds bits `8*(31-p) .. 8*(31-p)+7`, so byte 0 is the most
significant. -/
theorem to_bytes_big_endian (x : UInt256) (hx : x.Wf) (p : Nat) (hp : p < 32) :
    x.to_bytes.getD p 0 = x.toNat / 2 ^ (8 * (31 - p)) % 256 := by
  obtain ⟨h0, h1, h2, h3⟩ := hx
  have key : ∀ i j, i < 4 → j < 8 → p = 31 - (i * 8 + j) →
      x.to_bytes.getD p 0 = x.limb i / 2 ^ (j * 8) % 256 := by
    intro i j hi hj hpe
    rw [hpe]
    exact to_bytes_getD x i j hi hj
  have L0 : x.limb 0 = x.l0 := rfl
  have L1 : x.limb 1 = x.l1 := rfl
  have L2 : x.limb 2 = x.l2 := rfl
  have L3 : x.limb 3 = x.l3 := rfl
  unfold UInt256.toNat
  interval_cases p
  · rw [key 3 7 (by omega) (by omega) (by omega), L3]; omega
  · rw [key 3 6 (by omega) (by omega) (by omega), L3]; omega
  · rw [key 3 5 (by omega) (by omega) (by omega), L3]; omega
  · rw [key 3 4 (by omega) (by omega) (by omega), L3]; omega
  · rw [key 3 3 (by omega) (by omega) (by omega), L3]; omega
  · rw [key 3 2 (by omega) (by omega) (by omega), L3]; omega
  · rw [key 3 1 (by omega) (by omega) (by omega), L3]; omega
  · rw [key 3 0 (by omega) (by omega) (by omega), L3]; omega
  · rw [key 2 7 (by omega) (by omega) (by omega), L2]; omega
  · rw [key 2 6 (by omega) (by omega) (by omega), L2]; omega
  · rw [key 2 5 (by omega) (by omega) (by omega), L2]; omega
  · rw [key 2 4 (by omega) (by omega) (by omega), L2]; omega
  · rw [key 2 3 (by omega) (by omega) (by omega), L2]; omega
  · rw [key 2 2 (by omega) (by omega) (by omega), L2]; omega
  · rw [key 2 1 (by omega) (by omega) (by omega), L2]; omega
  · rw [key 2 0 (by omega) (by omega) (by omega), L2]; omega
  · rw [key 1 7 (by omega) (by omega) (by omega), L1]; omega
  · rw [key 1 6 (by omega) (by omega) (by omega), L1]; omega
  · rw [key 1 5 (by omega) (by omega) (by omega), L1]; omega
  · rw [key 1 4 (by omega) (by omega) (by omega), L1]; omega
  · rw [key 1 3 (by omega) (by omega) (by omega), L1]; omega
  · rw [key 1 2 (by omega) (by omega) (by omega), L1]; omega
  · rw [key 1 1 (by omega) (by omega) (by omega), L1]; omega
  · rw [key 1 0 (by omega) (by omega) (by omega), L1]; omega
  · rw [key 0 7 (by omega) (by omega) (by omega), L0]; omega
  · rw [key 0 6 (by omega) (by omega) (by omega), L0]; omega
  · rw [key 0 5 (by omega) (by omega) (by omega), L0]; omega
  · rw [key 0 4 (by omega) (by omega) (by omega), L0]; omega
  · rw [key 0 3 (by omega) (by omega) (by omega), L0]; omega
  · rw [key 0 2 (by omega) (by omega) (by omega), L0]; omega
  · rw [key 0 1 (by omega) (by omega) (by omega), L0]; omega
  · rw [key 0 0 (by omega) (by omega) (by omega), L0]; omega

/-- C7: `to_bytes` returns exactly 32 bytes in big-endian order (byte `p` is
the `(31-p)`-th least significant byte of the value, so byte 0 is the most
significant), and `from_bytes(to_bytes(x)) = x` for every well-formed
`UInt256`. -/
theorem to_from_bytes_roundtrip (x : UInt256) (hx : x.Wf) :
    x.to_bytes.length = 32 ∧
    (∀ p, p < 32 → x.to_bytes.getD p 0 = x.toNat / 2 ^ (8 * (31 - p)) % 256) ∧
    UInt256.from_bytes x.to_bytes = x := by
  obtain ⟨h0, h1, h2, h3⟩ := hx
  refine ⟨?_, fun p hp => to_bytes_big_endian x ⟨h0, h1, h2, h3⟩ p hp, ?_⟩
  · unfold UInt256.to_bytes
    exact List.length_ofFn _
  · unfold UInt256.from_bytes
    have e0 := limbFromBytes_to_bytes x 0 (by omega) (by simpa [UInt256.limb] using h0)
    have e1 := limbFromBytes_to_bytes x 1 (by omega) (by simpa [UInt256.limb] using h1)
    have e2 := limbFromBytes_to_bytes x 2 (by omega) (by simpa [UInt256.limb] using h2)
    have e3 := limbFromBytes_to_bytes x 3 (by omega) (by simpa [UInt256.limb] using h3)
    rw [e0, e1, e2, e3]
    cases x
    rfl

/-- Witness for `to_from_bytes_roundtrip` at a concrete value. -/
theorem to_from_bytes_roundtrip_witness :
    (⟨123, 2 ^ 64 - 1, 0, 77⟩ : UInt256).Wf ∧
    UInt256.from_bytes (UInt256.to_bytes ⟨123, 2 ^ 64 - 1, 0, 77⟩) = ⟨123, 2 ^ 64 - 1, 0, 77⟩ :=
  ⟨by decide, (to_from_bytes_roundtrip ⟨123, 2 ^ 64 - 1, 0, 77⟩ (by decide)).2.2⟩

/-! ## C4 — priority queue dequeue order -/

/-- The comparator in terms of priority values. -/
theorem task_lt_iff (a b : Task) : Task.lt a b = true ↔ a.pri < b.pri := by
  simp [Task.lt, Task.pri]

/-- In a heap every entry is bounded by the root. -/
theorem isHeap_le_root (l : List Task) (hh : IsHeap l) :
    ∀ i, i < l.length → (l.getD i dTask).pri ≤ (l.getD 0 dTask).pri := by
  intro i
  induction i using Nat.strong_induction_on with
  | _ i ih =>
    intro hi
    rcases Nat.eq_zero_or_pos i with rfl | hpos
    · exact le_rfl
    · exact le_trans (hh i hpos hi) (ih ((i - 1) / 2) (by omega) (by omega))

/-- In a heap every member is bounded by the root. -/
theorem isHeap_mem_le_root (l : List Task) (hh : IsHeap l) (x : Task) (hx : x ∈ l) :
    x.pri ≤ (l.getD 0 dTask).pri := by
  obtain ⟨i, hi, hie⟩ := List.getElem_of_mem hx
  have he : l.getD i dTask = x := by
    rw [List.getD_eq_getElem?_getD, List.getElem?_eq_getElem hi, Option.getD_some, hie]
  rw [← he]
  exact isHeap_le_root l hh i hi

/-- The empty queue is a heap. -/
theorem isHeap_nil : IsHeap [] := by
  intro i h1 h2
  simp at h2

/-- Consing the entry at position `k` onto the list with position `k`
overwritten by `b` is a permutation of consing `b` onto the original list. -/
theorem getD_cons_set_perm {α : Type} (d b : α) :
    ∀ (l : List α) (k : Nat), k < l.length →
      List.Perm (l.getD k d :: l.set k b) (b :: l) := by
  intro l
  induction l with
  | nil =>
    intro k hk
    simp at hk
  | cons c l2 ih =>
    intro k hk
    cases k with
    | zero =>
      simp only [List.getD_cons_zero, List.set_cons_zero]
      exact List.Perm.swap b c l2
    | succ m =>
      simp only [List.getD_cons_succ, List.set_cons_succ]
      have h1 := List.Perm.swap c (l2.getD m d) (l2.set m b)
      have h2 := List.Perm.cons c (ih m (by simp only [List.length_cons] at hk; omega))
      have h3 := List.Perm.swap b c l2
      exact (h1.trans h2).trans h3

/-- Exchanging a consed element with the one written at position `m` is a
permutation. -/
theorem cons_set_swap_perm {α : Type} (x y : α) :
    ∀ (l : List α) (m : Nat), m < l.length →
      List.Perm (x :: l.set m y) (y :: l.set m x) := by
  intro l
  induction l with
  | nil =>
    intro m hm
    simp at hm
  | cons c l2 ih =>
    intro m hm
    cases m with
    | zero =>
      simp only [List.set_cons_zero]
      exact List.Perm.swap y x l2
    | succ m2 =>
      simp only [List.set_cons_succ]
      have h1 := List.Perm.swap c x (l2.set m2 y)
      have h2 := List.Perm.cons c (ih m2 (by simp only [List.length_cons] at hm; omega))
      have h3 := List.Perm.swap y c (l2.set m2 x)
      exact (h1.trans h2).trans h3

/-- One hole move of the heap walks is a permutation: copying the entry at `j`
into position `i` and then overwriting position `j` with `b` permutes to just
overwriting position `i` with `b`. -/
theorem set_set_perm {α : Type} (d : α) :
    ∀ (l : List α) (i j : Nat), i < l.length → j < l.length → i ≠ j → ∀ b : α,
      List.Perm ((l.set i (l.getD j d)).set j b) (l.set i b) := by
  intro l
  induction l with
  | nil =>
    intro i j hi
    simp at hi
  | cons c l2 ih =>
    intro i j hi hj hij b
    cases i with
    | zero =>
      cases j with
      | zero => exact absurd rfl hij
      | succ j2 =>
        simp only [List.getD_cons_succ, List.set_cons_zero, List.set_cons_succ]
        exact getD_cons_set_perm d b l2 j2 (by simp only [List.length_cons] at hj; omega)
    | succ i2 =>
      cases j with
      | zero =>
        simp only [List.getD_cons_zero, List.set_cons_succ, List.set_cons_zero]
        exact cons_set_swap_perm b c l2 i2 (by simp only [List.length_cons] at hi; omega)
      | succ j2 =>
        simp only [List.getD_cons_succ, List.set_cons_succ]
        exact List.Perm.cons c (ih i2 j2 (by simp only [List.length_cons] at hi; omega)
          (by simp only [List.length_cons] at hj; omega) (by omega) b)

/-- Overwriting the freshly appended last entry. -/
theorem set_append_last {α : Type} (b t : α) :
    ∀ l : List α, (l ++ [t]).set l.length b = l ++ [b] := by
  intro l
  induction l with
  | nil => rfl
  | cons c l2 ih =>
    simp only [List.cons_append, List.length_cons, List.set_cons_succ, ih]

/-- Correctness of the `__push_heap` walk: if the array is a heap except at the
hole, the hole's children are bounded by `value`, and (below the top) also by
the hole's parent, then inserting `value` along the walk restores the heap; the
length is unchanged and the result is a permutation of the array with `value`
written into the original hole. -/
theorem siftUpGo_spec (value : Task) :
    ∀ fuel hole l, hole < fuel → hole < l.length →
      (∀ c, 0 < c → c < l.length → c ≠ hole → (c - 1) / 2 ≠ hole →
        (l.getD c dTask).pri ≤ (l.getD ((c - 1) / 2) dTask).pri) →
      (∀ c, 0 < c → c < l.length → (c - 1) / 2 = hole →
        (l.getD c dTask).pri ≤ value.pri) →
      (0 < hole → ∀ c, 0 < c → c < l.length → (c - 1) / 2 = hole →
        (l.getD c dTask).pri ≤ (l.getD ((hole - 1) / 2) dTask).pri) →
      IsHeap (siftUpGo fuel l hole value) ∧
        (siftUpGo fuel l hole value).length = l.length ∧
        List.Perm (siftUpGo fuel l hole value) (l.set hole value) := by
  intro fuel
  induction fuel with
  | zero =>
    intro hole l hf
    omega
  | succ fuel ih =>
    intro hole l hf hlen B1 B2 B3
    simp only [siftUpGo]
    by_cases hcond : 0 < hole ∧ Task.lt (l.getD ((hole - 1) / 2) dTask) value = true
    · rw [if_pos hcond]
      have hpos : 0 < hole := hcond.1
      have hplt : (hole - 1) / 2 < hole := by omega
      have hplen : (hole - 1) / 2 < l.length := by omega
      have hlt : (l.getD ((hole - 1) / 2) dTask).pri < value.pri :=
        (task_lt_iff _ _).mp hcond.2
      have B1' : ∀ c, 0 < c → c < (l.set hole (l.getD ((hole - 1) / 2) dTask)).length →
          c ≠ (hole - 1) / 2 → (c - 1) / 2 ≠ (hole - 1) / 2 →
          ((l.set hole (l.getD ((hole - 1) / 2) dTask)).getD c dTask).pri ≤
            ((l.set hole (l.getD ((hole - 1) / 2) dTask)).getD ((c - 1) / 2) dTask).pri := by
        intro c hc0 hclen hcp hcpp
        rw [List.length_set] at hclen
        by_cases hch : c = hole
        · exact absurd (by rw [hch]) hcpp
        · rw [getD_set_ne _ _ _ _ _ hch]
          by_cases hph : (c - 1) / 2 = hole
          · rw [hph, getD_set_self _ _ _ _ hlen]
            exact B3 hpos c hc0 hclen hph
          · rw [getD_set_ne _ _ _ _ _ hph]
            exact B1 c hc0 hclen hch hph
      have B2' : ∀ c, 0 < c → c < (l.set hole (l.getD ((hole - 1) / 2) dTask)).length →
          (c - 1) / 2 = (hole - 1) / 2 →
          ((l.set hole (l.getD ((hole - 1) / 2) dTask)).getD c dTask).pri ≤ value.pri := by
        intro c hc0 hclen hcp
        rw [List.length_set] at hclen
        by_cases hch : c = hole
        · rw [hch, getD_set_self _ _ _ _ hlen]
          omega
        · rw [getD_set_ne _ _ _ _ _ hch]
          have h5 := B1 c hc0 hclen hch (by omega)
          rw [hcp] at h5
          omega
      have B3' : 0 < (hole - 1) / 2 →
          ∀ c, 0 < c → c < (l.set hole (l.getD ((hole - 1) / 2) dTask)).length →
          (c - 1) / 2 = (hole - 1) / 2 →
          ((l.set hole (l.getD ((hole - 1) / 2) dTask)).getD c dTask).pri ≤
            ((l.set hole (l.getD ((hole - 1) / 2) dTask)).getD
              (((hole - 1) / 2 - 1) / 2) dTask).pri := by
        intro hp0 c hc0 hclen hcp
        rw [List.length_set] at hclen
        have hppne : ((hole - 1) / 2 - 1) / 2 ≠ hole := by omega
        rw [getD_set_ne _ _ _ _ _ hppne]
        have hpar : (l.getD ((hole - 1) / 2) dTask).pri ≤
            (l.getD (((hole - 1) / 2 - 1) / 2) dTask).pri :=
          B1 ((hole - 1) / 2) hp0 hplen (by omega) (by omega)
        by_cases hch : c = hole
        · rw [hch, getD_set_self _ _ _ _ hlen]
          exact hpar
        · rw [getD_set_ne _ _ _ _ _ hch]
          have h5 := B1 c hc0 hclen hch (by omega)
          rw [hcp] at h5
          omega
      obtain ⟨r1, r2, r3⟩ := ih ((hole - 1) / 2) (l.set hole (l.getD ((hole - 1) / 2) dTask))
        (by omega) (by rw [List.length_set]; omega) B1' B2' B3'
      exact ⟨r1, by rw [r2, List.length_set],
        r3.trans (set_set_perm dTask l hole ((hole - 1) / 2) hlen hplen (by omega) value)⟩
    · rw [if_neg hcond]
      refine ⟨?_, List.length_set .., List.Perm.refl _⟩
      intro i hi0 hilen
      rw [List.length_set] at hilen
      by_cases hih : i = hole
      · rw [hih, getD_set_self _ _ _ _ hlen,
          getD_set_ne _ _ _ _ _ (by omega : (hole - 1) / 2 ≠ hole)]
        have hnlt : ¬((l.getD ((hole - 1) / 2) dTask).pri < value.pri) := by
          intro hl2
          exact hcond ⟨by omega, (task_lt_iff _ _).mpr hl2⟩
        omega
      · by_cases hpi : (i - 1) / 2 = hole
        · rw [getD_set_ne _ _ _ _ _ hih, hpi, getD_set_self _ _ _ _ hlen]
          exact B2 i hi0 hilen hpi
        · rw [getD_set_ne _ _ _ _ _ hih, getD_set_ne _ _ _ _ _ hpi]
          exact B1 i hi0 hilen hih hpi

/-- `siftUp` instance of `siftUpGo_spec` (the supplied fuel is sufficient). -/
theorem siftUp_spec (l : List Task) (hole : Nat) (value : Task) (hlen : hole < l.length)
    (B1 : ∀ c, 0 < c → c < l.length → c ≠ hole → (c - 1) / 2 ≠ hole →
      (l.getD c dTask).pri ≤ (l.getD ((c - 1) / 2) dTask).pri)
    (B2 : ∀ c, 0 < c → c < l.length → (c - 1) / 2 = hole →
      (l.getD c dTask).pri ≤ value.pri)
    (B3 : 0 < hole → ∀ c, 0 < c → c < l.length → (c - 1) / 2 = hole →
      (l.getD c dTask).pri ≤ (l.getD ((hole - 1) / 2) dTask).pri) :
    IsHeap (siftUp l hole value) ∧ (siftUp l hole value).length = l.length ∧
      List.Perm (siftUp l hole value) (l.set hole value) :=
  siftUpGo_spec value (hole + 1) hole l (by omega) hlen B1 B2 B3

/-- `priority_queue::push` preserves the heap and the result is a permutation
of the queue with the pushed task added. -/
theorem heapPush_spec (l : List Task) (t : Task) (hh : IsHeap l) :
    IsHeap (heapPush l t) ∧ List.Perm (heapPush l t) (t :: l) := by
  have hlen : l.length < (l ++ [t]).length := by simp
  have B1 : ∀ c, 0 < c → c < (l ++ [t]).length → c ≠ l.length → (c - 1) / 2 ≠ l.length →
      ((l ++ [t]).getD c dTask).pri ≤ ((l ++ [t]).getD ((c - 1) / 2) dTask).pri := by
    intro c hc0 hclen hch hph
    simp only [List.length_append, List.length_cons, List.length_nil] at hclen
    have hcl : c < l.length := by omega
    have hpl : (c - 1) / 2 < l.length := by omega
    rw [getD_append_left _ _ _ _ hcl, getD_append_left _ _ _ _ hpl]
    exact hh c hc0 hcl
  have B2 : ∀ c, 0 < c → c < (l ++ [t]).length → (c - 1) / 2 = l.length →
      ((l ++ [t]).getD c dTask).pri ≤ t.pri := by
    intro c hc0 hclen hch
    exfalso
    simp only [List.length_append, List.length_cons, List.length_nil] at hclen
    omega
  have B3 : 0 < l.length → ∀ c, 0 < c → c < (l ++ [t]).length → (c - 1) / 2 = l.length →
      ((l ++ [t]).getD c dTask).pri ≤ ((l ++ [t]).getD ((l.length - 1) / 2) dTask).pri := by
    intro h0 c hc0 hclen hch
    exfalso
    simp only [List.length_append, List.length_cons, List.length_nil] at hclen
    omega
  obtain ⟨h1, h2, h3⟩ := siftUp_spec (l ++ [t]) l.length t hlen B1 B2 B3
  refine ⟨h1, ?_⟩
  rw [heapPush]
  rw [set_append_last t t l] at h3
  exact h3.trans (List.perm_append_singleton t l)

/-- Copying the larger child into the hole keeps the whole array a heap (the
stale hole value is a duplicate of an ancestor, so the array is a heap
throughout the descend phase). -/
theorem set_max_child (l : List Task) (hole c : Nat) (hh : IsHeap l)
    (hchild : c = 2 * hole + 1 ∨ c = 2 * hole + 2) (hc : c < l.length)
    (hother : ∀ c2, (c2 = 2 * hole + 1 ∨ c2 = 2 * hole + 2) → c2 < l.length →
      (l.getD c2 dTask).pri ≤ (l.getD c dTask).pri) :
    IsHeap (l.set hole (l.getD c dTask)) := by
  intro i hi0 hilen
  rw [List.length_set] at hilen
  have hhl : hole < l.length := by omega
  have hch2 : (c - 1) / 2 = hole := by omega
  by_cases hih : i = hole
  · rw [hih, getD_set_self _ _ _ _ hhl,
      getD_set_ne _ _ _ _ _ (by omega : (hole - 1) / 2 ≠ hole)]
    have h1 := hh c (by omega) hc
    rw [hch2] at h1
    have h2 := hh hole (by omega) hhl
    omega
  · by_cases hpi : (i - 1) / 2 = hole
    · rw [getD_set_ne _ _ _ _ _ hih, hpi, getD_set_self _ _ _ _ hhl]
      exact hother i (by omega) hilen
    · rw [getD_set_ne _ _ _ _ _ hih, getD_set_ne _ _ _ _ _ hpi]
      exact hh i hi0 hilen

/-- Correctness of the `__adjust_heap` descend loop: starting from a heap with
hole index equal to `secondChild`, it ends with the exit condition satisfied,
hole and `secondChild` equal and inside the array, the heap property intact,
the length unchanged, and — for any value `b` later written into the final
hole — the result permutes to the input with `b` written into the initial
hole. -/
theorem adjustLoopGo_spec :
    ∀ fuel l hole sc len, (len - 1) / 2 ≤ sc + fuel → IsHeap l → hole = sc →
      l.length = len → sc < len →
      IsHeap (adjustLoopGo fuel l hole sc len).1 ∧
      (adjustLoopGo fuel l hole sc len).1.length = len ∧
      (adjustLoopGo fuel l hole sc len).2.1 = (adjustLoopGo fuel l hole sc len).2.2 ∧
      ¬((adjustLoopGo fuel l hole sc len).2.2 < (len - 1) / 2) ∧
      (adjustLoopGo fuel l hole sc len).2.2 < len ∧
      (∀ b : Task, List.Perm ((adjustLoopGo fuel l hole sc len).1.set
        (adjustLoopGo fuel l hole sc len).2.1 b) (l.set hole b)) := by
  intro fuel
  induction fuel with
  | zero =>
    intro l hole sc len hgas hh hhs hlen hsl
    simp only [adjustLoopGo]
    exact ⟨hh, hlen, hhs, by omega, hsl, fun b => List.Perm.refl _⟩
  | succ fuel ih =>
    intro l hole sc len hgas hh hhs hlen hsl
    subst hhs
    simp only [adjustLoopGo]
    by_cases hc : hole < (len - 1) / 2
    · rw [if_pos hc]
      have hc1 : 2 * (hole + 1) - 1 < len := by omega
      have hc2 : 2 * (hole + 1) < len := by omega
      have e1 : 2 * (hole + 1) - 1 = 2 * hole + 1 := by omega
      have e2 : 2 * (hole + 1) = 2 * hole + 2 := by omega
      by_cases hlt :
          Task.lt (l.getD (2 * (hole + 1)) dTask) (l.getD (2 * (hole + 1) - 1) dTask) = true
      · rw [if_pos hlt]
        have hstrict := (task_lt_iff _ _).mp hlt
        have hheap2 : IsHeap (l.set hole (l.getD (2 * (hole + 1) - 1) dTask)) :=
          set_max_child l hole (2 * (hole + 1) - 1) hh (Or.inl e1) (by omega)
            (by
              intro c2 hc2' hc2len
              rcases hc2' with rfl | rfl
              · rw [e1]
              · rw [← e2]
                omega)
        obtain ⟨r1, r2, r3, r4, r5, r6⟩ := ih (l.set hole (l.getD (2 * (hole + 1) - 1) dTask))
          (2 * (hole + 1) - 1) (2 * (hole + 1) - 1) len (by omega) hheap2 rfl
          (by rw [List.length_set]; omega) (by omega)
        exact ⟨r1, r2, r3, r4, r5, fun b => (r6 b).trans
          (set_set_perm dTask l hole (2 * (hole + 1) - 1) (by omega) (by omega) (by omega) b)⟩
      · rw [if_neg hlt]
        have hge : (l.getD (2 * (hole + 1) - 1) dTask).pri ≤
            (l.getD (2 * (hole + 1)) dTask).pri := by
          have h5 : ¬((l.getD (2 * (hole + 1)) dTask).pri <
              (l.getD (2 * (hole + 1) - 1) dTask).pri) :=
            fun h6 => hlt ((task_lt_iff _ _).mpr h6)
          omega
        have hheap2 : IsHeap (l.set hole (l.getD (2 * (hole + 1)) dTask)) :=
          set_max_child l hole (2 * (hole + 1)) hh (Or.inr e2) (by omega)
            (by
              intro c2 hc2' hc2len
              rcases hc2' with rfl | rfl
              · rw [← e1]
                exact hge
              · rw [← e2])
        obtain ⟨r1, r2, r3, r4, r5, r6⟩ := ih (l.set hole (l.getD (2 * (hole + 1)) dTask))
          (2 * (hole + 1)) (2 * (hole + 1)) len (by omega) hheap2 rfl
          (by rw [List.length_set]; omega) (by omega)
        exact ⟨r1, r2, r3, r4, r5, fun b => (r6 b).trans
          (set_set_perm dTask l hole (2 * (hole + 1)) (by omega) (by omega) (by omega) b)⟩
    · rw [if_neg hc]
      exact ⟨hh, hlen, rfl, hc, hsl, fun b => List.Perm.refl _⟩

/-- Unfolding of `adjustHeap` (the let is zeta-reduced for rewriting). -/
theorem adjustHeap_eq (l : List Task) (len : Nat) (value : Task) :
    adjustHeap l len value =
      if len % 2 = 0 ∧ (adjustLoopGo len l 0 0 len).2.2 = (len - 2) / 2 then
        siftUp ((adjustLoopGo len l 0 0 len).1.set (adjustLoopGo len l 0 0 len).2.1
            ((adjustLoopGo len l 0 0 len).1.getD
              (2 * ((adjustLoopGo len l 0 0 len).2.2 + 1) - 1) dTask))
          (2 * ((adjustLoopGo len l 0 0 len).2.2 + 1) - 1) value
      else
        siftUp (adjustLoopGo len l 0 0 len).1 (adjustLoopGo len l 0 0 len).2.1 value :=
  rfl

/-- Correctness of `__adjust_heap`: on a heap of positive length it produces a
heap of the same length that is a permutation of the input with `value` written
into the top hole. -/
theorem adjustHeap_spec (l : List Task) (len : Nat) (value : Task) (hh : IsHeap l)
    (hlen : l.length = len) (hpos : 0 < len) :
    IsHeap (adjustHeap l len value) ∧ (adjustHeap l len value).length = len ∧
      List.Perm (adjustHeap l len value) (l.set 0 value) := by
  rw [adjustHeap_eq]
  obtain ⟨a1, a2, a3, a4, a5, a6⟩ :=
    adjustLoopGo_spec len l 0 0 len (by omega) hh rfl hlen (by omega)
  set r := adjustLoopGo len l 0 0 len
  by_cases hbr : len % 2 = 0 ∧ r.2.2 = (len - 2) / 2
  · rw [if_pos hbr]
    have hbr1 := hbr.1
    have hbr2 := hbr.2
    have hlen2 : 2 ≤ len := by omega
    have hchlt : 2 * (r.2.2 + 1) - 1 < r.1.length := by omega
    have hset : IsHeap (r.1.set r.2.1 (r.1.getD (2 * (r.2.2 + 1) - 1) dTask)) := by
      apply set_max_child _ _ _ a1 (Or.inl (by omega)) hchlt
      intro c2 hc2 hc2l
      rcases hc2 with rfl | rfl
      · have e : 2 * (r.2.2 + 1) - 1 = 2 * r.2.1 + 1 := by omega
        rw [e]
      · exfalso
        rw [a2] at hc2l
        omega
    have B1 : ∀ c, 0 < c →
        c < (r.1.set r.2.1 (r.1.getD (2 * (r.2.2 + 1) - 1) dTask)).length →
        c ≠ 2 * (r.2.2 + 1) - 1 → (c - 1) / 2 ≠ 2 * (r.2.2 + 1) - 1 →
        ((r.1.set r.2.1 (r.1.getD (2 * (r.2.2 + 1) - 1) dTask)).getD c dTask).pri ≤
          ((r.1.set r.2.1 (r.1.getD (2 * (r.2.2 + 1) - 1) dTask)).getD
            ((c - 1) / 2) dTask).pri :=
      fun c hc0 hclen _ _ => hset c hc0 hclen
    have B2 : ∀ c, 0 < c →
        c < (r.1.set r.2.1 (r.1.getD (2 * (r.2.2 + 1) - 1) dTask)).length →
        (c - 1) / 2 = 2 * (r.2.2 + 1) - 1 →
        ((r.1.set r.2.1 (r.1.getD (2 * (r.2.2 + 1) - 1) dTask)).getD c dTask).pri ≤
          value.pri := by
      intro c hc0 hclen hph
      exfalso
      rw [List.length_set, a2] at hclen
      omega
    have B3 : 0 < 2 * (r.2.2 + 1) - 1 → ∀ c, 0 < c →
        c < (r.1.set r.2.1 (r.1.getD (2 * (r.2.2 + 1) - 1) dTask)).length →
        (c - 1) / 2 = 2 * (r.2.2 + 1) - 1 →
        ((r.1.set r.2.1 (r.1.getD (2 * (r.2.2 + 1) - 1) dTask)).getD c dTask).pri ≤
          ((r.1.set r.2.1 (r.1.getD (2 * (r.2.2 + 1) - 1) dTask)).getD
            ((2 * (r.2.2 + 1) - 1 - 1) / 2) dTask).pri := by
      intro h0 c hc0 hclen hph
      exfalso
      rw [List.length_set, a2] at hclen
      omega
    obtain ⟨s1, s2, s3⟩ := siftUp_spec _ (2 * (r.2.2 + 1) - 1) value
      (by rw [List.length_set]; omega) B1 B2 B3
    refine ⟨s1, ?_, ?_⟩
    · rw [s2, List.length_set, a2]
    · have hswap := set_set_perm dTask r.1 r.2.1 (2 * (r.2.2 + 1) - 1)
        (by omega) hchlt (by omega) value
      exact (s3.trans hswap).trans (a6 value)
  · rw [if_neg hbr]
    have hchildless : len ≤ 2 * r.2.2 + 1 := by
      by_cases he : len % 2 = 0
      · have hne : r.2.2 ≠ (len - 2) / 2 := fun h5 => hbr ⟨he, h5⟩
        omega
      · omega
    have B1 : ∀ c, 0 < c → c < r.1.length → c ≠ r.2.1 → (c - 1) / 2 ≠ r.2.1 →
        (r.1.getD c dTask).pri ≤ (r.1.getD ((c - 1) / 2) dTask).pri :=
      fun c hc0 hclen _ _ => a1 c hc0 hclen
    have B2 : ∀ c, 0 < c → c < r.1.length → (c - 1) / 2 = r.2.1 →
        (r.1.getD c dTask).pri ≤ value.pri := by
      intro c hc0 hclen hph
      exfalso
      rw [a2] at hclen
      omega
    have B3 : 0 < r.2.1 → ∀ c, 0 < c → c < r.1.length → (c - 1) / 2 = r.2.1 →
        (r.1.getD c dTask).pri ≤ (r.1.getD ((r.2.1 - 1) / 2) dTask).pri := by
      intro h0 c hc0 hclen hph
      exfalso
      rw [a2] at hclen
      omega
    obtain ⟨s1, s2, s3⟩ := siftUp_spec r.1 r.2.1 value (by omega) B1 B2 B3
    refine ⟨s1, ?_, ?_⟩
    · rw [s2, a2]
    · exact s3.trans (a6 value)

/-- Dropping the last entry of a heap leaves a heap. -/
theorem isHeap_dropLast (l : List Task) (hh : IsHeap l) : IsHeap l.dropLast := by
  intro i hi0 hilen
  rw [List.length_dropLast] at hilen
  have e : ∀ j, j < l.length - 1 → l.dropLast.getD j dTask = l.getD j dTask := by
    intro j hj
    rw [List.getD_eq_getElem?_getD, List.getD_eq_getElem?_getD, List.getElem?_dropLast,
      if_pos hj]
  rw [e i hilen, e ((i - 1) / 2) (by omega)]
  exact hh i hi0 (by omega)

/-- The default value of `getLastD` is irrelevant on a nonempty list and the
result is a member. -/
theorem getLastD_mem {α : Type} (l : List α) (d : α) (h : l ≠ []) : l.getLastD d ∈ l := by
  induction l generalizing d with
  | nil => exact absurd rfl h
  | cons a l ih =>
    rw [List.getLastD_cons]
    cases l with
    | nil => simp [List.getLastD_nil]
    | cons b l2 => exact List.mem_cons_of_mem _ (ih b (by simp))

/-- The cons equation of `heapPop`. -/
theorem heapPop_cons (a : Task) (l0 : List Task) :
    heapPop (a :: l0) =
      if l0.isEmpty then some (a, [])
      else some (a, adjustHeap (a :: l0).dropLast (a :: l0).dropLast.length
                      ((a :: l0).getLastD dTask)) :=
  rfl

/-- Correctness of `priority_queue::pop`: it returns the front of the heap and
leaves a heap; the popped task consed back onto the remaining heap is a
permutation of the original queue (so popping removes exactly one entry). -/
theorem heapPop_spec (l : List Task) (hh : IsHeap l) (t : Task) (rest : List Task)
    (h : heapPop l = some (t, rest)) :
    t = l.getD 0 dTask ∧ IsHeap rest ∧ List.Perm (t :: rest) l := by
  cases l with
  | nil => exact Option.noConfusion h
  | cons a l0 =>
    rw [heapPop_cons] at h
    by_cases he : l0.isEmpty = true
    · rw [if_pos he] at h
      have hnil : l0 = [] := List.isEmpty_iff.mp he
      rw [Option.some.injEq, Prod.mk.injEq] at h
      obtain ⟨ht, hrest⟩ := h
      subst hnil
      refine ⟨ht.symm, ?_, ?_⟩
      · rw [← hrest]
        exact isHeap_nil
      · rw [← hrest, ← ht]
    · rw [if_neg he] at h
      rw [Option.some.injEq, Prod.mk.injEq] at h
      obtain ⟨ht, hrest⟩ := h
      have hl0 : l0 ≠ [] := fun h5 => he (by simp [h5])
      have hdk : 0 < l0.length := List.length_pos.mpr hl0
      have hdllen : 0 < (a :: l0).dropLast.length := by
        simp [List.length_dropLast]
        exact hdk
      obtain ⟨g1, g2, g3⟩ := adjustHeap_spec (a :: l0).dropLast (a :: l0).dropLast.length
        ((a :: l0).getLastD dTask) (isHeap_dropLast _ hh) rfl hdllen
      rw [hrest] at g1 g2 g3
      have hd0 : (a :: l0).dropLast.getD 0 dTask = a := by
        rw [List.getD_eq_getElem?_getD, List.getElem?_dropLast,
          if_pos (by simp; exact hdk)]
        simp
      have hlast : (a :: l0).getLastD dTask = (a :: l0).getLast (by simp) := by
        rw [List.getLastD_eq_getLast?, List.getLast?_eq_getLast (a :: l0) (by simp)]
        rfl
      refine ⟨ht.symm, g1, ?_⟩
      rw [← ht]
      have p1 : List.Perm (a :: rest)
          (a :: (a :: l0).dropLast.set 0 ((a :: l0).getLastD dTask)) :=
        List.Perm.cons a g3
      have p2 := getD_cons_set_perm dTask ((a :: l0).getLastD dTask)
        ((a :: l0).dropLast) 0 hdllen
      rw [hd0] at p2
      have p3 : List.Perm ((a :: l0).getLastD dTask :: (a :: l0).dropLast)
          ((a :: l0).dropLast ++ [(a :: l0).getLastD dTask]) :=
        (List.perm_append_singleton _ _).symm
      have hrecomb : (a :: l0).dropLast ++ [(a :: l0).getLastD dTask] = a :: l0 := by
        rw [hlast]
        exact List.dropLast_append_getLast (by simp)
      exact hrecomb ▸ ((p1.trans p2).trans p3)

/-- Draining the heap yields a permutation of the queued tasks, in
non-increasing priority order. -/
theorem drainFuel_spec :
    ∀ fuel l, l.length ≤ fuel → IsHeap l →
      List.Perm (drainFuel fuel l) l ∧
      List.Chain' (fun a b => b.pri ≤ a.pri) (drainFuel fuel l) := by
  intro fuel
  induction fuel with
  | zero =>
    intro l hl hh
    have hnil : l = [] := List.length_eq_zero.mp (by omega)
    subst hnil
    exact ⟨List.Perm.refl _, by simp [drainFuel]⟩
  | succ fuel ih =>
    intro l hl hh
    cases hp : heapPop l with
    | none =>
      have hnil : l = [] := by
        cases l with
        | nil => rfl
        | cons a l0 =>
          exfalso
          rw [heapPop_cons] at hp
          by_cases he : l0.isEmpty = true
          · rw [if_pos he] at hp
            exact Option.noConfusion hp
          · rw [if_neg he] at hp
            exact Option.noConfusion hp
      have hred : drainFuel (fuel + 1) l = [] := by
        simp only [drainFuel]
        rw [hp]
      rw [hred, hnil]
      exact ⟨List.Perm.refl _, by simp⟩
    | some tr =>
      obtain ⟨t, rest⟩ := tr
      have hred : drainFuel (fuel + 1) l = t :: drainFuel fuel rest := by
        simp only [drainFuel]
        rw [hp]
      obtain ⟨ht, hrest, hperm⟩ := heapPop_spec l hh t rest hp
      have hlen2 : rest.length + 1 = l.length := by
        have h5 := hperm.length_eq
        simpa using h5
      obtain ⟨d1, d2⟩ := ih rest (by omega) hrest
      rw [hred]
      refine ⟨(List.Perm.cons t d1).trans hperm, ?_⟩
      rw [List.chain'_cons']
      refine ⟨fun b hb => ?_, d2⟩
      have hbl : b ∈ l := hperm.mem_iff.mp
        (List.mem_cons_of_mem t (d1.mem_iff.mp (List.mem_of_mem_head? hb)))
      rw [ht]
      exact isHeap_mem_le_root l hh b hbl

/-- Pushing a task list into an empty queue yields a heap that holds exactly
the listed tasks (as a permutation). -/
theorem heapPushAll_spec (ts : List Task) :
    IsHeap (heapPushAll ts) ∧ List.Perm (heapPushAll ts) ts := by
  have H : ∀ (us : List Task) (acc : List Task), IsHeap acc →
      IsHeap (us.foldl heapPush acc) ∧
      List.Perm (us.foldl heapPush acc) (acc ++ us) := by
    intro us
    induction us with
    | nil =>
      intro acc hacc
      refine ⟨hacc, ?_⟩
      rw [List.foldl_nil, List.append_nil]
    | cons t ts2 ih =>
      intro acc hacc
      rw [List.foldl_cons]
      obtain ⟨p1, p2⟩ := heapPush_spec acc t hacc
      obtain ⟨q1, q2⟩ := ih (heapPush acc t) p1
      refine ⟨q1, ?_⟩
      have h3 : List.Perm (heapPush acc t ++ ts2) ((t :: acc) ++ ts2) :=
        p2.append_right ts2
      have h4 : List.Perm ((t :: acc) ++ ts2) (acc ++ t :: ts2) := by
        rw [List.cons_append]
        exact List.perm_middle.symm
      exact (q2.trans h3).trans h4
  obtain ⟨h1, h2⟩ := H ts [] isHeap_nil
  refine ⟨h1, ?_⟩
  rw [heapPushAll]
  exact (List.nil_append ts) ▸ h2

/-- C4 (amended): the already-queued tasks, dequeued by a single worker, come
out in max-heap order of their priority level — the dequeued sequence is a
permutation of the queued tasks (every queued task is dequeued exactly once
and nothing else is), and its priorities are non-increasing.  The FIFO
tie-break among equal priorities claimed by the spec does not hold (see the
counterexample). -/
theorem tasks_dequeued_in_max_heap_order (ts : List Task) :
    List.Perm (drain (heapPushAll ts)) ts ∧
    List.Chain' (fun a b => b.pri ≤ a.pri) (drain (heapPushAll ts)) := by
  obtain ⟨h1, h2⟩ := heapPushAll_spec ts
  obtain ⟨d1, d2⟩ := drainFuel_spec (heapPushAll ts).length (heapPushAll ts) le_rfl h1
  exact ⟨d1.trans h2, d2⟩

/-- C4 (counterexample to the claim as stated): four tasks of equal priority
submitted in order 0, 1, 2, 3 are dequeued in order 0, 2, 1, 3 — the
`std::priority_queue` binary heap does not dequeue equal-priority tasks in
FIFO order of submission. -/
theorem equal_priority_tasks_not_fifo :
    (drain (heapPushAll [⟨0, TaskPriority.NORMAL⟩, ⟨1, TaskPriority.NORMAL⟩,
        ⟨2, TaskPriority.NORMAL⟩, ⟨3, TaskPriority.NORMAL⟩])).map Task.seq = [0, 2, 1, 3] ∧
    (drain (heapPushAll [⟨0, TaskPriority.NORMAL⟩, ⟨1, TaskPriority.NORMAL⟩,
        ⟨2, TaskPriority.NORMAL⟩, ⟨3, TaskPriority.NORMAL⟩])).map Task.seq ≠ [0, 1, 2, 3] := by
  refine ⟨by decide, by decide⟩

end keyhunt.core
